import Mathlib

/-!
Verification of the TPIE core fragments: the job-decomposed parallel quicksort
(`parallel_sort.h`), the set-associative LRU cache manager (`ami_cache_lru.h`),
the device descriptor (`ami_device.cpp`) and the progress indicator contract
(`progress_indicator_base.h`).

The C++ code is shallowly embedded: iterator ranges become index ranges over a
`List`, machine integers become `Nat`/`Int`, the writeback functor becomes an
explicit list of emitted values, and the inner loops become fuel-indexed
recursions (the fuel is always instantiated large enough that it never runs
out on the inputs the theorems talk about).
-/

namespace tpie

/-! ## Shared array model

The C++ code works on random-access iterator ranges.  We model the underlying
container as a `List α` and an iterator as an index into it.  `aget` is `*it`
(out-of-range reads yield `default`; all theorems stay in range), `aswap` is
`std::iter_swap`, and `window A a b` is the contents of the range `[a, b)`. -/

variable {α : Type} [Inhabited α]

def aget (A : List α) (i : Nat) : α := A.getD i default

def aswap (A : List α) (i j : Nat) : List α :=
  (A.set i (aget A j)).set j (aget A i)

def window (A : List α) (a b : Nat) : List α :=
  (A.drop a).take (b - a)

/-- A strict weak ordering, as assumed of the comparator `comp` by the spec:
irreflexive, transitive, and with transitive incomparability (stated in the
equivalent form: the negation of the flipped relation is transitive). -/
structure IsSWO (comp : α → α → Bool) : Prop where
  irrefl : ∀ x, comp x x = false
  trans : ∀ x y z, comp x y = true → comp y z = true → comp x z = true
  negtrans : ∀ x y z, comp x y = false → comp y z = false → comp x z = false

/-- Sortedness of the range `[a, b)` exactly as the spec states it:
for all `i < j`, not `comp(a[j], a[i])`. -/
def sortedRange (comp : α → α → Bool) (A : List α) (a b : Nat) : Prop :=
  ∀ i j, a ≤ i → i < j → j < b → comp (aget A j) (aget A i) = false

/-- The spec-side notion "m is a comp-median of the three values x, y, z":
m is one of the three, and the remaining two can be arranged as p, q with
m not below p and q not below m (`¬comp m p` and `¬comp q m`). -/
def IsMedianOf3 (comp : α → α → Bool) (m x y z : α) : Prop :=
  ∃ p q, List.Perm [p, m, q] [x, y, z] ∧ comp m p = false ∧ comp q m = false

/-! ## Parallel sort (`parallel_sort.h`)

`parallel_sort_impl::operator()` either sorts a small range sequentially with
`std::sort` or runs the range through `qsort_job`s.  Each `qsort_job`
repeatedly partitions `[a, b)`, hands the left part `[a, pivot)` to a child
job, and continues on `[pivot+1, b)`; below `min_size` it calls `std::sort`.
Jobs act on disjoint subranges, so the job-decomposed execution computes the
same array as the sequential recursion `qsort_job` below (the job system
itself, `tpie/job.h`, is not part of the sources; its completion contract is
taken from the spec, section 4.3). -/

/-- The right-to-left scan `do --last; while (comp(*pivot, *last));` of
`unguarded_partition`.  The pivot iterator is the index `lo`; its value is
re-read from the array at every comparison, as in the source.  The argument
is the current value of `last`; the result is its value after the loop. -/
def scanR (comp : α → α → Bool) (A : List α) (lo : Nat) : Nat → Nat
  | 0 => 0
  | l + 1 => if comp (aget A lo) (aget A l) then scanR comp A lo l else l

/-- The left-to-right scan
`do { if (first == last) break; ++first; } while (comp(*first, *pivot));`
of `unguarded_partition`.  `fuel` only bounds the iteration count; with
`fuel ≥ last - first` it is never exhausted. -/
def scanL (comp : α → α → Bool) (A : List α) (lo last : Nat) :
    Nat → Nat → Nat
  | 0, first => first
  | fuel + 1, first =>
    if first = last then first
    else if comp (aget A (first + 1)) (aget A lo) then
      scanL comp A lo last fuel (first + 1)
    else first + 1

/-- The `while (true)` loop of `unguarded_partition`: scan from the right,
scan from the left, stop when the iterators meet, otherwise swap and
continue. -/
def ugpLoop (comp : α → α → Bool) (lo : Nat) :
    Nat → List α → Nat → Nat → List α × Nat
  | 0, A, _first, last => (A, last)
  | fuel + 1, A, first, last =>
    let last1 := scanR comp A lo last
    let first1 := scanL comp A lo last1 (last1 - first) first
    if first1 = last1 then (A, last1)
    else ugpLoop comp lo fuel (aswap A first1 last1) first1 last1

/-- `parallel_sort_impl::unguarded_partition(first, last, comp)` on the range
`[first, last)`: run the scan loop, then `std::iter_swap(last, pivot)` and
return `last`. -/
def unguarded_partition (comp : α → α → Bool) (A : List α)
    (first last : Nat) : List α × Nat :=
  let r := ugpLoop comp first (last - first + 1) A first last
  (aswap r.1 r.2 first, r.2)

/-- `parallel_sort_impl::median(a, b, c, comp)`: the median-of-three decision
tree from the source, on indices `a b c`. -/
def median (comp : α → α → Bool) (A : List α) (a b c : Nat) : Nat :=
  if comp (aget A a) (aget A b) then
    if comp (aget A b) (aget A c) then b
    else if comp (aget A a) (aget A c) then c
    else a
  else
    if comp (aget A a) (aget A c) then a
    else if comp (aget A b) (aget A c) then c
    else b

/-- `parallel_sort_impl::pick_pivot(a, b, comp)`: the ninther (median of three
medians of nine samples) on the range `[a, b)`. -/
def pick_pivot (comp : α → α → Bool) (A : List α) (a b : Nat) : Nat :=
  if a = b then a
  else
    let step := (b - a) / 8
    median comp A
      (median comp A (a + 0) (a + step) (a + step * 2))
      (median comp A (a + step * 3) (a + step * 4) (a + step * 5))
      (median comp A (a + step * 6) (a + step * 7) (b - 1))

/-- `parallel_sort_impl::partition(a, b, comp)`: pick the pivot, swap it to
the front, run the unguarded partition, return the boundary. -/
def partition (comp : α → α → Bool) (A : List α) (a b : Nat) :
    List α × Nat :=
  let pivot := pick_pivot comp A a b
  let A1 := aswap A pivot a
  unguarded_partition comp A1 a b

/-- Modelled from the spec: `std::sort(a, b, comp)` is not repository code;
the spec only requires that the range is "sorted in place by an introspective
sequential sort".  We realize that contract by insertion sort on the window
`[a, b)` with respect to the non-strict relation induced by `comp`; any
implementation meeting the `std::sort` contract computes a range with the
same sortedness and permutation properties. -/
def std_sort (comp : α → α → Bool) (A : List α) (a b : Nat) : List α :=
  A.take a ++
    List.insertionSort (fun x y => comp y x = false) (window A a b) ++
    A.drop b

/-- `qsort_job::operator()` as a sequential recursion:
`while ((b - a) >= min_size) { pivot := partition(a, b); spawn child on
[a, pivot); a := pivot + 1 }; std::sort(a, b)`.  The spawned child runs the
same body on `[a, pivot)`; since all jobs act on disjoint subranges, the
interleaved execution computes this recursion.  `fuel ≥ b - a` suffices. -/
def qsort_job (min_size : Nat) (comp : α → α → Bool) :
    Nat → List α → Nat → Nat → List α
  | 0, A, _, _ => A
  | fuel + 1, A, a, b =>
    if b - a < min_size then std_sort comp A a b
    else
      let r := partition comp A a b
      let A2 := qsort_job min_size comp fuel r.1 a r.2
      qsort_job min_size comp fuel A2 (r.2 + 1) b

/-- `parallel_sort_impl::operator()(a, b, comp)`: below `min_size` the range
is sorted sequentially; otherwise the master `qsort_job` is enqueued and
joined (progress accounting does not affect the array and is omitted). -/
def parallel_sort (min_size : Nat) (comp : α → α → Bool) (A : List α)
    (a b : Nat) : List α :=
  if b - a < min_size then std_sort comp A a b
  else qsort_job min_size comp (b - a) A a b

end tpie

namespace ami

/-! ## LRU set-associative cache manager (`ami_cache_lru.h`)

Keys are `TPIE_OS_OFFSET` block addresses, used as non-negative values and
hashed with `k % sets_`; we model them as `Nat` (key `0` is the reserved
"empty" marker).  The user-supplied writeback functor `writeout_` is modelled
by returning the list of values passed to it, in call order. -/

variable {V : Type} [Inhabited V]

structure cache_manager_lru (V : Type) where
  capacity_ : Nat
  assoc_ : Nat
  sets_ : Nat
  pdata_ : List (Nat × V)

namespace cache_manager_lru

/-- The constructor `cache_manager_lru(capacity, assoc)`: `assoc = 0` means
fully associative, associativity is clamped to the capacity, the capacity is
rounded down to a multiple of the associativity, and all slots are marked
empty (key `0`, default-constructed value). -/
def construct (capacity assoc : Nat) : cache_manager_lru V :=
  let a0 := if assoc = 0 then capacity else assoc
  if capacity ≠ 0 then
    let a1 := if a0 > capacity then capacity else a0
    let c1 := if capacity % a1 ≠ 0 then capacity / a1 * a1 else capacity
    { capacity_ := c1, assoc_ := a1, sets_ := c1 / a1,
      pdata_ := List.replicate c1 (0, default) }
  else
    { capacity_ := 0, assoc_ := a0, sets_ := 0, pdata_ := [] }

/-- The cache line (the `b_vector` window) holding key `k`:
`&pdata_[(k % sets_) * assoc_]`, of length `assoc_`. -/
def line (c : cache_manager_lru V) (k : Nat) : List (Nat × V) :=
  (c.pdata_.drop (k % c.sets_ * c.assoc_)).take c.assoc_

/-- Write the cache line of key `k` back into the flat slot array. -/
def putLine (c : cache_manager_lru V) (k : Nat) (w : List (Nat × V)) :
    cache_manager_lru V :=
  { c with pdata_ :=
      c.pdata_.take (k % c.sets_ * c.assoc_) ++ w ++
        c.pdata_.drop (k % c.sets_ * c.assoc_ + c.assoc_) }

/-- Modelled from the spec: `b_vector<T>::insert(t, 0)` (`b_vector.h` is not
part of the sources).  Per the spec, "the new entry is inserted at slot 0 and
prior occupants slide toward A−1"; the previous occupant of the last slot
falls off. -/
def bv_insert0 (x : Nat × V) (w : List (Nat × V)) : List (Nat × V) :=
  x :: w.take (w.length - 1)

/-- Modelled from the spec: `b_vector<T>::erase(i)` (`b_vector.h` is not part
of the sources).  Per the spec, "the slot is compacted": entries after `i`
slide one position toward the front; the final slot keeps its old contents
(the caller then marks it empty by zeroing its key). -/
def bv_erase (w : List (Nat × V)) (i : Nat) : List (Nat × V) :=
  w.take i ++ w.drop (i + 1) ++ w.drop (w.length - 1)

/-- `cache_manager_lru::read(k, item)`: on a capacity-0 cache, miss;
otherwise search the line for `k`; on a hit, pass the value to the caller,
compact the line (for associativity > 1) and mark the last slot empty.  The
result is `(found value, new state, values handed to the writeback functor)`;
the source never calls `writeout_` in `read`, so that list is `[]`. -/
def read (c : cache_manager_lru V) (k : Nat) :
    Option V × cache_manager_lru V × List V :=
  if c.capacity_ = 0 then (none, c, [])
  else
    let w := line c k
    match w.findIdx? (fun e => e.1 == k) with
    | none => (none, c, [])
    | some i =>
      let item := (w.getD i default).2
      let w1 := if 1 < c.assoc_ then bv_erase w i else w
      let w2 := w1.set (c.assoc_ - 1) (0, (w1.getD (c.assoc_ - 1) default).2)
      (some item, putLine c k w2, [])

/-- `cache_manager_lru::write(k, item)`: on a capacity-0 cache the value goes
straight to the writeback functor; otherwise the occupant of the last (LRU)
slot, if any, is written back, and `(k, item)` is inserted at slot 0 (for
associativity 1, slot 0 is simply overwritten). -/
def write (c : cache_manager_lru V) (k : Nat) (v : V) :
    Bool × cache_manager_lru V × List V :=
  if c.capacity_ = 0 then (true, c, [v])
  else
    let w := line c k
    let ev := if (w.getD (c.assoc_ - 1) default).1 ≠ 0 then
        [(w.getD (c.assoc_ - 1) default).2]
      else []
    let w1 := if 1 < c.assoc_ then bv_insert0 (k, v) w else w.set 0 (k, v)
    (true, putLine c k w1, ev)

/-- `cache_manager_lru::erase(k)`: search the line for `k`; on a hit, write
the value back, compact the line, and mark the last slot empty.  The source
has no capacity-0 guard here (`k % sets_` with `sets_ = 0` is undefined in
C++; under the `Nat` semantics `k % 0 = k` the search misses on the empty
slot array). -/
def erase (c : cache_manager_lru V) (k : Nat) :
    Bool × cache_manager_lru V × List V :=
  let w := line c k
  match w.findIdx? (fun e => e.1 == k) with
  | none => (false, c, [])
  | some i =>
    let ev := [(w.getD i default).2]
    let w1 := bv_erase w i
    let w2 := w1.set (c.assoc_ - 1) (0, (w1.getD (c.assoc_ - 1) default).2)
    (true, putLine c k w2, ev)

/-- `cache_manager_lru::flush()`: walk the slot array in index order, write
back every occupied slot and mark it empty. -/
def flush (c : cache_manager_lru V) : cache_manager_lru V × List V :=
  ({ c with pdata_ := c.pdata_.map (fun e => if e.1 ≠ 0 then (0, e.2) else e) },
   (c.pdata_.filter (fun e => e.1 ≠ 0)).map Prod.snd)

/-- Shape invariant established by the constructor: the flat slot array has
`capacity_` entries and `capacity_ = sets_ * assoc_` (with `assoc_ > 0`
whenever the capacity is non-zero). -/
def WF (c : cache_manager_lru V) : Prop :=
  c.pdata_.length = c.capacity_ ∧ c.capacity_ = c.sets_ * c.assoc_ ∧
    (0 < c.capacity_ → 0 < c.assoc_)

end cache_manager_lru

end ami

/-! ## Device descriptor (`ami_device.cpp`) -/

namespace amidev

/-- The error kinds returned by `AMI_device` operations. -/
inductive AMI_err where
  | AMI_ERROR_NO_ERROR
  | AMI_ERROR_ENV_UNDEFINED
  deriving DecidableEq

/-- The component-splitting loop of `AMI_device::set_to_path`: `argc` is one
more than the number of `':'` characters, and `argv[ii]` is the run of
characters after the `ii`-th colon and before the next. -/
def splitColon : List Char → List (List Char)
  | [] => [[]]
  | c :: rest =>
    if c = ':' then [] :: splitColon rest
    else
      match splitColon rest with
      | [] => [[c]]
      | comp :: comps => (c :: comp) :: comps

/-- `AMI_device::set_to_path(path)`: replace the device contents with the
colon-separated components of `path` and return `AMI_ERROR_NO_ERROR`. -/
def set_to_path (path : List Char) : AMI_err × List (List Char) :=
  (AMI_err.AMI_ERROR_NO_ERROR, splitColon path)

/-- `AMI_device::read_environment(name)`: `getenv` is modelled by the
environment map `env`.  If the variable is absent, return
`AMI_ERROR_ENV_UNDEFINED` (leaving the device as it was); otherwise behave as
`set_to_path` on its value. -/
def read_environment (env : String → Option (List Char)) (name : String)
    (dev : List (List Char)) : AMI_err × List (List Char) :=
  match env name with
  | none => (AMI_err.AMI_ERROR_ENV_UNDEFINED, dev)
  | some v => set_to_path v

end amidev

/-! ## Progress indicator (`progress_indicator_base.h`)

`TPIE_OS_OFFSET` fields are modelled as `Int`.  The tick counter
(`getticks()`) is an external input, passed to each update as `t`; the
refresh threshold (`m_threshold`, a process-wide constant) is the parameter
`θ`.  `refresh()` only draws and changes no counter state.  The time
predictor pointer is modelled as `Option Nat` (an abstract object identity).
-/

namespace pib

structure progress_indicator_base where
  m_minRange : Int
  m_maxRange : Int
  m_stepValue : Int
  m_current : Int
  m_percentageChecker : Int
  m_percentageValue : Int
  m_percentageUnit : Int
  m_lastUpdate : Int
  m_predictor : Option Nat
  deriving DecidableEq

/-- The main constructor
`progress_indicator_base(title, description, minRange, maxRange, stepValue)`
(the tick of construction is the parameter `tick`). -/
def construct (minRange maxRange stepValue tick : Int) :
    progress_indicator_base :=
  { m_minRange := min minRange maxRange
    m_maxRange := max minRange maxRange
    m_stepValue := max (min stepValue (max minRange maxRange - min minRange maxRange)) 1
    m_current := 0
    m_percentageChecker := 0
    m_percentageValue := 0
    m_percentageUnit := 0
    m_lastUpdate := tick
    m_predictor := none }

/-- The copy constructor: copies every field, including `m_predictor`. -/
def copy_construct (other : progress_indicator_base) :
    progress_indicator_base :=
  { m_minRange := other.m_minRange
    m_maxRange := other.m_maxRange
    m_stepValue := other.m_stepValue
    m_current := other.m_current
    m_percentageChecker := other.m_percentageChecker
    m_percentageValue := other.m_percentageValue
    m_percentageUnit := other.m_percentageUnit
    m_lastUpdate := other.m_lastUpdate
    m_predictor := other.m_predictor }

/-- `operator=`: copies the counter fields and the last-update tick, but not
`m_predictor`. -/
def assign (this other : progress_indicator_base) :
    progress_indicator_base :=
  { m_percentageChecker := other.m_percentageChecker
    m_percentageValue := other.m_percentageValue
    m_percentageUnit := other.m_percentageUnit
    m_maxRange := other.m_maxRange
    m_minRange := other.m_minRange
    m_stepValue := other.m_stepValue
    m_current := other.m_current
    m_lastUpdate := other.m_lastUpdate
    m_predictor := this.m_predictor }

def reset (s : progress_indicator_base) : progress_indicator_base :=
  { s with m_current := s.m_minRange }

def set_min_range (minRange : Int) (s : progress_indicator_base) :
    progress_indicator_base :=
  reset { s with m_minRange := minRange }

def set_max_range (maxRange : Int) (s : progress_indicator_base) :
    progress_indicator_base :=
  reset { s with m_maxRange := maxRange }

def set_step_value (stepValue : Int) (s : progress_indicator_base) :
    progress_indicator_base :=
  { s with m_stepValue := stepValue }

/-- `set_range(minRange, maxRange, stepValue)`. -/
def set_range (minRange maxRange stepValue : Int)
    (s : progress_indicator_base) : progress_indicator_base :=
  let s1 := set_min_range (min minRange maxRange) s
  let s2 := set_max_range (max minRange maxRange) s1
  let s3 := set_step_value
    (max (min stepValue (s2.m_maxRange - s2.m_minRange)) 1) s2
  reset { s3 with m_percentageValue := 0, m_percentageChecker := 0,
                  m_percentageUnit := 0 }

/-- `step(step)` at tick `t` with refresh threshold `θ`: advance `m_current`,
and record the tick when a refresh fires. -/
def step (θ : Int) (n : Int) (t : Int) (s : progress_indicator_base) :
    progress_indicator_base :=
  let s1 := { s with m_current := s.m_current + n }
  if t - s1.m_lastUpdate > θ then { s1 with m_lastUpdate := t } else s1

/-- `init(range, step)` at tick `t`. -/
def init (range stepValue t : Int) (s : progress_indicator_base) :
    progress_indicator_base :=
  let s1 := if range ≠ 0 then set_range 0 range stepValue s else s
  { s1 with m_current := s1.m_minRange, m_lastUpdate := t }

/-- `step_percentage()`: `++m_percentageChecker; m_percentageChecker %=
m_percentageValue; if (!m_percentageChecker && m_current < m_maxRange)
step();`.  The source reduces modulo `m_percentageValue` with no guard; when
that field is `0` the C++ is undefined (integer division by zero), modelled
as `none`. -/
def step_percentage (θ t : Int) (s : progress_indicator_base) :
    Option progress_indicator_base :=
  if s.m_percentageValue = 0 then none
  else
    let ck := (s.m_percentageChecker + 1) % s.m_percentageValue
    let s1 := { s with m_percentageChecker := ck }
    if ck = 0 ∧ s1.m_current < s1.m_maxRange then
      some (step θ s1.m_stepValue t s1)
    else some s1

/-- `set_percentage_range(minRange, maxRange, percentageUnit)`.  The
`unsigned short` cast in the degenerate branch truncates modulo `2^16`. -/
def set_percentage_range (minRange maxRange percentageUnit : Int)
    (s : progress_indicator_base) : progress_indicator_base :=
  let localMin := min minRange maxRange
  let localMax := max minRange maxRange
  let s1 := set_step_value 1 s
  let pu := max percentageUnit 1
  let pv := (localMax - localMin) / pu
  let s2 := { s1 with m_percentageUnit := pu, m_percentageValue := pv }
  let s3 :=
    if 0 < pv then set_max_range pu (set_min_range 0 s2)
    else
      { set_max_range localMax (set_min_range localMin s2) with
          m_percentageValue := 1,
          m_percentageUnit := (localMax - localMin) % 65536 }
  reset { s3 with m_percentageChecker := 0 }

/-- One update operation of the claimed monotonicity property: `step(n)`,
`step()` or `step_percentage()`, each observing the tick `t`. -/
inductive PIOp where
  | stepN (n t : Int)
  | stepDefault (t : Int)
  | stepPct (t : Int)
  deriving DecidableEq

def applyOp (θ : Int) : PIOp → progress_indicator_base →
    Option progress_indicator_base
  | PIOp.stepN n t, s => some (step θ n t s)
  | PIOp.stepDefault t, s => some (step θ s.m_stepValue t s)
  | PIOp.stepPct t, s => step_percentage θ t s

def runOps (θ : Int) : List PIOp → progress_indicator_base →
    Option progress_indicator_base
  | [], s => some s
  | op :: ops, s => (applyOp θ op s).bind (runOps θ ops)

/-- `step(n)` counts as a non-negative update when its increment is
non-negative; the other operations carry no increment argument. -/
def nonnegArg : PIOp → Bool
  | PIOp.stepN n _ => decide (0 ≤ n)
  | PIOp.stepDefault _ => true
  | PIOp.stepPct _ => true

end pib

/-! # Proof development -/

/-! ## Device descriptor lemmas -/

namespace amidev

theorem splitColon_ne_nil (p : List Char) : splitColon p ≠ [] := by
  cases p with
  | nil => simp [splitColon]
  | cons c rest =>
    unfold splitColon
    split
    · simp
    · split <;> simp

theorem intercalate_cons2 (a b : List Char) (t : List (List Char)) :
    List.intercalate [':'] (a :: b :: t) =
      a ++ [':'] ++ List.intercalate [':'] (b :: t) := by
  simp [List.intercalate, List.intersperse]

theorem intercalate_splitColon (p : List Char) :
    List.intercalate [':'] (splitColon p) = p := by
  induction p with
  | nil => simp [splitColon, List.intercalate]
  | cons c rest ih =>
    unfold splitColon
    obtain ⟨d, ds, hds⟩ := List.exists_cons_of_ne_nil (splitColon_ne_nil rest)
    rw [hds] at ih
    rw [hds]
    by_cases hc : c = ':'
    · rw [if_pos hc, intercalate_cons2, hc]
      simpa using ih
    · rw [if_neg hc]
      cases ds with
      | nil =>
        simp only [List.intercalate] at ih ⊢
        simp at ih ⊢
        exact ih
      | cons e es =>
        rw [intercalate_cons2] at ih ⊢
        simpa using ih

theorem length_splitColon (p : List Char) :
    (splitColon p).length = p.count ':' + 1 := by
  induction p with
  | nil => simp [splitColon]
  | cons c rest ih =>
    unfold splitColon
    obtain ⟨d, ds, hds⟩ := List.exists_cons_of_ne_nil (splitColon_ne_nil rest)
    rw [hds] at ih
    rw [hds]
    by_cases hc : c = ':'
    · rw [if_pos hc]
      simp only [List.length_cons] at ih ⊢
      rw [List.count_cons]
      simp [hc, ih]
    · rw [if_neg hc]
      simp only [List.length_cons] at ih ⊢
      rw [List.count_cons]
      simp [Ne.symm hc, hc, ih]

theorem noColon_splitColon (p : List Char) : ∀ l ∈ splitColon p, ':' ∉ l := by
  induction p with
  | nil => simp [splitColon]
  | cons c rest ih =>
    unfold splitColon
    by_cases hc : c = ':'
    · rw [if_pos hc]; intro l hl
      rcases List.mem_cons.mp hl with h | h
      · simp [h]
      · exact ih l h
    · rw [if_neg hc]
      cases hsc : splitColon rest with
      | nil => exact absurd hsc (splitColon_ne_nil rest)
      | cons d ds =>
        intro l hl
        rcases List.mem_cons.mp hl with h | h
        · subst h; intro hmem
          rcases List.mem_cons.mp hmem with h | h
          · exact hc h.symm
          · exact ih d (hsc ▸ List.mem_cons_self d ds) h
        · exact ih l (hsc ▸ List.mem_cons_of_mem d h)

/-- The component splitter of `set_to_path` coincides with the canonical
splitting of a colon-separated list (the spec-side notion of "the i-th path
component"). -/
theorem splitColon_eq_splitOn (p : List Char) : splitColon p = p.splitOn ':' := by
  conv_rhs => rw [← intercalate_splitColon p]
  exact (List.splitOn_intercalate (splitColon p) ':' (noColon_splitColon p)
    (splitColon_ne_nil p)).symm

end amidev

/-! ## Progress indicator lemmas -/

namespace pib

theorem step_fields (θ n t : Int) (s : progress_indicator_base) :
    (step θ n t s).m_current = s.m_current + n ∧
    (step θ n t s).m_stepValue = s.m_stepValue ∧
    (step θ n t s).m_maxRange = s.m_maxRange := by
  unfold step
  dsimp only
  split <;> exact ⟨rfl, rfl, rfl⟩

theorem applyOp_mono (θ : Int) (op : PIOp) (s s1 : progress_indicator_base)
    (hop : nonnegArg op = true) (hsv : 1 ≤ s.m_stepValue)
    (h : applyOp θ op s = some s1) :
    s.m_current ≤ s1.m_current ∧ s1.m_stepValue = s.m_stepValue := by
  cases op with
  | stepN n t =>
    have hn : 0 ≤ n := of_decide_eq_true hop
    injection h with h
    subst h
    refine ⟨?_, (step_fields θ n t s).2.1⟩
    rw [(step_fields θ n t s).1]
    omega
  | stepDefault t =>
    injection h with h
    subst h
    refine ⟨?_, (step_fields θ s.m_stepValue t s).2.1⟩
    rw [(step_fields θ s.m_stepValue t s).1]
    omega
  | stepPct t =>
    replace h : step_percentage θ t s = some s1 := h
    unfold step_percentage at h
    by_cases hpv : s.m_percentageValue = 0
    · rw [if_pos hpv] at h
      cases h
    · rw [if_neg hpv] at h
      dsimp only at h
      split at h
      · injection h with h
        subst h
        constructor
        · rw [(step_fields θ _ t _).1]
          dsimp only
          omega
        · rw [(step_fields θ _ t _).2.1]
      · injection h with h
        subst h
        exact ⟨le_refl _, rfl⟩

theorem runOps_mono (θ : Int) :
    ∀ (ops : List PIOp) (s s1 : progress_indicator_base),
      (∀ op ∈ ops, nonnegArg op = true) → 1 ≤ s.m_stepValue →
      runOps θ ops s = some s1 → s.m_current ≤ s1.m_current
  | [], s, s1, _, _, h => by
    injection h with h
    rw [h]
  | op :: ops, s, s1, hops, hsv, h => by
    unfold runOps at h
    cases hap : applyOp θ op s with
    | none => rw [hap] at h; cases h
    | some s2 =>
      rw [hap] at h
      replace h : runOps θ ops s2 = some s1 := h
      have h1 := applyOp_mono θ op s s2 (hops op (List.mem_cons_self op ops)) hsv hap
      have h2 := runOps_mono θ ops s2 s1
        (fun o ho => hops o (List.mem_cons_of_mem op ho)) (h1.2 ▸ hsv) h
      exact le_trans h1.1 h2

theorem set_range_m_stepValue (minR maxR sv : Int)
    (s : progress_indicator_base) :
    1 ≤ (set_range minR maxR sv s).m_stepValue := by
  unfold set_range set_min_range set_max_range set_step_value reset
  exact le_max_right _ _

end pib

/-! ## Claim theorems: progress indicator and device -/

/-- C9: `step_percentage()` reduces the internal checker modulo
`m_percentageValue` with no guard.  The constructor initializes
`m_percentageValue` to `0`, so in the freshly constructed state
`step_percentage` performs a modulo by zero (undefined in C++, modelled as
`none`); it is defined under the precondition `m_percentageValue ≥ 1`, which
`set_percentage_range` always establishes. -/
theorem C9_step_percentage_modulo_zero :
    (∀ minR maxR sv tick,
      (pib.construct minR maxR sv tick).m_percentageValue = 0) ∧
    (∀ minR maxR sv tick θ t,
      pib.step_percentage θ t (pib.construct minR maxR sv tick) = none) ∧
    (∀ θ t s, 1 ≤ s.m_percentageValue →
      (pib.step_percentage θ t s).isSome = true) ∧
    (∀ minR maxR u s,
      1 ≤ (pib.set_percentage_range minR maxR u s).m_percentageValue) := by
  refine ⟨fun _ _ _ _ => rfl, fun _ _ _ _ _ _ => rfl, ?_, ?_⟩
  · intro θ t s hpv
    unfold pib.step_percentage
    rw [if_neg (by omega)]
    dsimp only
    split <;> rfl
  · intro minR maxR u s
    unfold pib.set_percentage_range pib.set_min_range pib.set_max_range
      pib.set_step_value pib.reset
    dsimp only
    split
    · dsimp only; omega
    · dsimp only; omega

/-- Witness for C9: after `set_percentage_range(0, 100, 100)` the percentage
value is `1 ≥ 1` and `step_percentage` is defined there. -/
theorem C9_witness :
    1 ≤ (pib.set_percentage_range 0 100 100
          (pib.construct 0 0 1 0)).m_percentageValue ∧
    (pib.step_percentage 5 7 (pib.set_percentage_range 0 100 100
      (pib.construct 0 0 1 0))).isSome = true :=
  ⟨by decide, C9_step_percentage_modulo_zero.2.2.1 5 7 _ (by decide)⟩

/-- C10: `operator=` copies the range bounds, step value, current position,
percentage fields and last-update tick from `other`, but leaves the
time-predictor pointer of the target unchanged; the copy constructor does
copy the predictor. -/
theorem C10_assignment_skips_predictor (x y : pib.progress_indicator_base) :
    (pib.assign x y).m_minRange = y.m_minRange ∧
    (pib.assign x y).m_maxRange = y.m_maxRange ∧
    (pib.assign x y).m_stepValue = y.m_stepValue ∧
    (pib.assign x y).m_current = y.m_current ∧
    (pib.assign x y).m_percentageChecker = y.m_percentageChecker ∧
    (pib.assign x y).m_percentageValue = y.m_percentageValue ∧
    (pib.assign x y).m_percentageUnit = y.m_percentageUnit ∧
    (pib.assign x y).m_lastUpdate = y.m_lastUpdate ∧
    (pib.assign x y).m_predictor = x.m_predictor ∧
    (pib.copy_construct y).m_predictor = y.m_predictor :=
  ⟨rfl, rfl, rfl, rfl, rfl, rfl, rfl, rfl, rfl, rfl⟩

/-- C6 counterexample: the claim quantifies over every sequence of update
operations, including `step(n)` with a negative increment; `step(-1)` after
`set_range(0, 100, 1)` strictly decreases the current position, so the
current position is not monotone non-decreasing over every such sequence. -/
theorem C6_counterexample :
    pib.runOps 5 [pib.PIOp.stepN (-1) 0]
        (pib.set_range 0 100 1 (pib.construct 0 0 1 0)) =
      some (pib.step 5 (-1) 0 (pib.set_range 0 100 1 (pib.construct 0 0 1 0))) ∧
    (pib.step 5 (-1) 0 (pib.set_range 0 100 1
        (pib.construct 0 0 1 0))).m_current <
      (pib.set_range 0 100 1 (pib.construct 0 0 1 0)).m_current := by
  decide

/-- C6 (amended): after `init`/`set_range` (both of which leave
`m_stepValue ≥ 1`, as does the constructor), the current position is monotone
non-decreasing over every sequence of `step(n)` with `n ≥ 0`, `step()` and
`step_percentage()` updates that completes without hitting the undefined
modulo-by-zero of `step_percentage`. -/
theorem C6_monotone_updates :
    (∀ minR maxR sv (s : pib.progress_indicator_base),
      1 ≤ (pib.set_range minR maxR sv s).m_stepValue) ∧
    (∀ minR maxR sv tick,
      1 ≤ (pib.construct minR maxR sv tick).m_stepValue) ∧
    (∀ θ ops s s1, (∀ op ∈ ops, pib.nonnegArg op = true) →
      1 ≤ s.m_stepValue → pib.runOps θ ops s = some s1 →
      s.m_current ≤ s1.m_current) :=
  ⟨pib.set_range_m_stepValue, fun _ _ _ _ => le_max_right _ _,
   fun θ ops s s1 h1 h2 h3 => pib.runOps_mono θ ops s s1 h1 h2 h3⟩

/-- Witness for C6: a concrete run of `step(1)`, `step()`, `step_percentage()`
after `set_percentage_range(0, 100, 100)` does not decrease the current
position. -/
theorem C6_witness :
    (pib.set_percentage_range 0 100 100 (pib.construct 0 0 1 0)).m_current ≤
      ((pib.runOps 5 [pib.PIOp.stepN 1 0, pib.PIOp.stepDefault 0,
          pib.PIOp.stepPct 0]
        (pib.set_percentage_range 0 100 100 (pib.construct 0 0 1 0))).getD
          (pib.construct 0 0 1 0)).m_current := by
  cases hr : pib.runOps 5 [pib.PIOp.stepN 1 0, pib.PIOp.stepDefault 0,
      pib.PIOp.stepPct 0]
    (pib.set_percentage_range 0 100 100 (pib.construct 0 0 1 0)) with
  | none => exact absurd hr (by decide)
  | some s1 =>
    have h := C6_monotone_updates.2.2 5
      [pib.PIOp.stepN 1 0, pib.PIOp.stepDefault 0, pib.PIOp.stepPct 0]
      (pib.set_percentage_range 0 100 100 (pib.construct 0 0 1 0)) s1
      (by decide) (by decide) hr
    simpa using h

/-- C7: `read_environment(name)` returns the env-undefined error exactly when
the variable is absent, and otherwise behaves as `set_to_path` on its value,
returning no-error; `set_to_path` leaves the device with arity equal to the
number of colons plus one, `operator[](i)` yielding the i-th colon-separated
component (`List.splitOn ':'` is the spec-side notion of the component
decomposition). -/
theorem C7_read_environment_set_to_path (env : String → Option (List Char))
    (name : String) (dev : List (List Char)) :
    ((amidev.read_environment env name dev).1 =
        amidev.AMI_err.AMI_ERROR_ENV_UNDEFINED ↔ env name = none) ∧
    (∀ v, env name = some v →
      amidev.read_environment env name dev =
        (amidev.AMI_err.AMI_ERROR_NO_ERROR, amidev.splitColon v)) ∧
    (∀ p, (amidev.set_to_path p).1 = amidev.AMI_err.AMI_ERROR_NO_ERROR ∧
      (amidev.set_to_path p).2.length = p.count ':' + 1 ∧
      (amidev.set_to_path p).2 = p.splitOn ':' ∧
      ∀ i, i < (amidev.set_to_path p).2.length →
        (amidev.set_to_path p).2.getD i [] = (p.splitOn ':').getD i []) := by
  refine ⟨?_, ?_, ?_⟩
  · cases h : env name with
    | none => simp [amidev.read_environment, h]
    | some v => simp [amidev.read_environment, h, amidev.set_to_path]
  · intro v hv
    simp [amidev.read_environment, hv, amidev.set_to_path]
  · intro p
    refine ⟨rfl, amidev.length_splitColon p, ?_, ?_⟩
    · exact amidev.splitColon_eq_splitOn p
    · intro i _
      rw [show (amidev.set_to_path p).2 = amidev.splitColon p from rfl,
        amidev.splitColon_eq_splitOn p]

/-- Witness for C7: a concrete environment where the variable holds `"a:b"`.
-/
theorem C7_witness :
    amidev.read_environment
        (fun n => if n = "AMI" then some ['a', ':', 'b'] else none) "AMI" [] =
      (amidev.AMI_err.AMI_ERROR_NO_ERROR, [['a'], ['b']]) := by
  have h := (C7_read_environment_set_to_path
    (fun n => if n = "AMI" then some ['a', ':', 'b'] else none) "AMI" []).2.1
    ['a', ':', 'b'] (by decide)
  rw [h]
  decide

/-! ## Cache manager lemmas -/

namespace ami

namespace cache_manager_lru

variable {V : Type} [Inhabited V]

theorem assoc_pos (c : cache_manager_lru V) (hwf : c.WF)
    (hcap : 0 < c.capacity_) : 0 < c.assoc_ :=
  hwf.2.2 hcap

theorem sets_pos (c : cache_manager_lru V) (hwf : c.WF)
    (hcap : 0 < c.capacity_) : 0 < c.sets_ := by
  rcases Nat.eq_zero_or_pos c.sets_ with h | h
  · exfalso
    have := hwf.2.1
    rw [h] at this
    omega
  · exact h

theorem start_bound (c : cache_manager_lru V) (k : Nat) (hwf : c.WF)
    (hcap : 0 < c.capacity_) :
    k % c.sets_ * c.assoc_ + c.assoc_ ≤ c.pdata_.length := by
  have hs := sets_pos c hwf hcap
  have hmod : k % c.sets_ < c.sets_ := Nat.mod_lt k hs
  have hm : (k % c.sets_ + 1) * c.assoc_ ≤ c.sets_ * c.assoc_ :=
    Nat.mul_le_mul_right _ hmod
  rw [Nat.add_mul, Nat.one_mul] at hm
  have hlen : c.pdata_.length = c.sets_ * c.assoc_ := by
    rw [hwf.1, hwf.2.1]
  rw [hlen]
  omega

theorem line_length (c : cache_manager_lru V) (k : Nat) (hwf : c.WF)
    (hcap : 0 < c.capacity_) : (line c k).length = c.assoc_ := by
  unfold line
  rw [List.length_take, List.length_drop]
  have := start_bound c k hwf hcap
  omega

theorem putLine_pdata (c : cache_manager_lru V) (k : Nat)
    (w : List (Nat × V)) (hw : w.length = c.assoc_) (hwf : c.WF)
    (hcap : 0 < c.capacity_) :
    (putLine c k w).pdata_.length = c.pdata_.length := by
  unfold putLine
  dsimp only
  rw [List.length_append, List.length_append, List.length_take,
    List.length_drop]
  have := start_bound c k hwf hcap
  omega

theorem WF_putLine (c : cache_manager_lru V) (k : Nat) (w : List (Nat × V))
    (hw : w.length = c.assoc_) (hwf : c.WF) (hcap : 0 < c.capacity_) :
    (putLine c k w).WF := by
  refine ⟨?_, hwf.2.1, hwf.2.2⟩
  rw [putLine_pdata c k w hw hwf hcap]
  exact hwf.1

theorem line_putLine (c : cache_manager_lru V) (k : Nat) (w : List (Nat × V))
    (hw : w.length = c.assoc_) (hwf : c.WF) (hcap : 0 < c.capacity_) :
    line (putLine c k w) k = w := by
  unfold line putLine
  dsimp only
  have hb := start_bound c k hwf hcap
  have htl : (c.pdata_.take (k % c.sets_ * c.assoc_)).length =
      k % c.sets_ * c.assoc_ := by
    rw [List.length_take]
    omega
  rw [List.append_assoc, List.drop_left' htl, List.take_left' hw]

theorem bv_erase_length (w : List (Nat × V)) (i : Nat) (hi : i < w.length)
    (h1 : 1 ≤ w.length) :
    (bv_erase w i).length = w.length := by
  unfold bv_erase
  rw [List.length_append, List.length_append, List.length_take,
    List.length_drop, List.length_drop]
  omega

theorem bv_erase_zero (w : List (Nat × V)) :
    bv_erase w 0 = w.drop 1 ++ w.drop (w.length - 1) := by
  unfold bv_erase
  simp

end cache_manager_lru

end ami

namespace ami

namespace cache_manager_lru

variable {V : Type} [Inhabited V]

theorem write_unfold (c : cache_manager_lru V) (k : Nat) (v : V)
    (hcap : c.capacity_ ≠ 0) :
    write c k v =
      (true,
       putLine c k (if 1 < c.assoc_ then bv_insert0 (k, v) (line c k)
         else (line c k).set 0 (k, v)),
       if ((line c k).getD (c.assoc_ - 1) default).1 ≠ 0 then
         [((line c k).getD (c.assoc_ - 1) default).2]
       else []) := by
  unfold write
  rw [if_neg hcap]

theorem write_line_shape (c : cache_manager_lru V) (k : Nat) (v : V)
    (hwf : c.WF) (hcap : 0 < c.capacity_) :
    (if 1 < c.assoc_ then bv_insert0 (k, v) (line c k)
      else (line c k).set 0 (k, v)) =
      (k, v) :: (line c k).take (c.assoc_ - 1) := by
  have hlen := line_length c k hwf hcap
  have hA := assoc_pos c hwf hcap
  by_cases h : 1 < c.assoc_
  · rw [if_pos h]
    unfold bv_insert0
    rw [hlen]
  · rw [if_neg h]
    have hA1 : c.assoc_ = 1 := by omega
    cases hl : line c k with
    | nil =>
      rw [hl] at hlen
      rw [hA1] at hlen
      simp at hlen
    | cons x xs =>
      rw [hl] at hlen
      rw [hA1] at hlen ⊢
      simp only [List.length_cons] at hlen
      have hxs : xs = [] := List.length_eq_zero.mp (by omega)
      subst hxs
      rfl

theorem write_line_len (c : cache_manager_lru V) (k : Nat) (v : V)
    (hwf : c.WF) (hcap : 0 < c.capacity_) :
    ((k, v) :: (line c k).take (c.assoc_ - 1)).length = c.assoc_ := by
  have hlen := line_length c k hwf hcap
  have hA := assoc_pos c hwf hcap
  rw [List.length_cons, List.length_take]
  omega

theorem line_write (c : cache_manager_lru V) (k : Nat) (v : V)
    (hwf : c.WF) (hcap : 0 < c.capacity_) :
    line (write c k v).2.1 k = (k, v) :: (line c k).take (c.assoc_ - 1) := by
  rw [write_unfold c k v (by omega), write_line_shape c k v hwf hcap]
  exact line_putLine c k _ (write_line_len c k v hwf hcap) hwf hcap

theorem WF_write (c : cache_manager_lru V) (k : Nat) (v : V)
    (hwf : c.WF) (hcap : 0 < c.capacity_) : (write c k v).2.1.WF := by
  rw [write_unfold c k v (by omega), write_line_shape c k v hwf hcap]
  exact WF_putLine c k _ (write_line_len c k v hwf hcap) hwf hcap

theorem write_capacity (c : cache_manager_lru V) (k : Nat) (v : V) :
    (write c k v).2.1.capacity_ = c.capacity_ := by
  unfold write
  split
  · rfl
  · rfl

theorem write_assoc (c : cache_manager_lru V) (k : Nat) (v : V) :
    (write c k v).2.1.assoc_ = c.assoc_ := by
  unfold write
  split
  · rfl
  · rfl

end cache_manager_lru

end ami

/-- C2: `write(k, v)` returns ok; with capacity 0 the value goes immediately
and directly to the writeback functor; otherwise, if the LRU slot (index
`A-1`) of set `k mod S` is occupied, its value is written back, and `(k, v)`
is inserted at slot 0 with the prior occupants of slots `0..A-2` shifted one
position toward `A-1` (the resulting line is `(k, v)` followed by the first
`A-1` prior occupants). -/
theorem C2_write_inserts_at_mru {V : Type} [Inhabited V]
    (c : ami.cache_manager_lru V) (k : Nat)
    (v : V) (hwf : c.WF) (hk : k ≠ 0) :
    (ami.cache_manager_lru.write c k v).1 = true ∧
    (c.capacity_ = 0 → ami.cache_manager_lru.write c k v = (true, c, [v])) ∧
    (0 < c.capacity_ →
      (ami.cache_manager_lru.write c k v).2.2 =
        (if ((ami.cache_manager_lru.line c k).getD (c.assoc_ - 1)
              default).1 ≠ 0 then
          [((ami.cache_manager_lru.line c k).getD (c.assoc_ - 1) default).2]
        else []) ∧
      ami.cache_manager_lru.line (ami.cache_manager_lru.write c k v).2.1 k =
        (k, v) ::
          (ami.cache_manager_lru.line c k).take (c.assoc_ - 1)) := by
  refine ⟨?_, ?_, ?_⟩
  · unfold ami.cache_manager_lru.write
    split
    · rfl
    · rfl
  · intro h
    unfold ami.cache_manager_lru.write
    rw [if_pos h]
  · intro hcap
    refine ⟨?_, ami.cache_manager_lru.line_write c k v hwf hcap⟩
    rw [ami.cache_manager_lru.write_unfold c k v (by omega)]

/-- Witness for C2 on a concrete capacity-4, associativity-2 cache. -/
theorem C2_witness :
    (ami.cache_manager_lru.construct 4 2 : ami.cache_manager_lru Nat).WF ∧
    (1 : Nat) ≠ 0 ∧
    ((ami.cache_manager_lru.write
        (ami.cache_manager_lru.construct 4 2 : ami.cache_manager_lru Nat)
        1 10).1 = true ∧
      ((ami.cache_manager_lru.construct 4 2 :
          ami.cache_manager_lru Nat).capacity_ = 0 →
        ami.cache_manager_lru.write
          (ami.cache_manager_lru.construct 4 2 : ami.cache_manager_lru Nat)
          1 10 =
          (true, ami.cache_manager_lru.construct 4 2, [10])) ∧
      (0 < (ami.cache_manager_lru.construct 4 2 :
          ami.cache_manager_lru Nat).capacity_ →
        (ami.cache_manager_lru.write
          (ami.cache_manager_lru.construct 4 2 : ami.cache_manager_lru Nat)
          1 10).2.2 =
          (if ((ami.cache_manager_lru.line
                (ami.cache_manager_lru.construct 4 2 :
                  ami.cache_manager_lru Nat) 1).getD
                ((ami.cache_manager_lru.construct 4 2 :
                  ami.cache_manager_lru Nat).assoc_ - 1) default).1 ≠ 0 then
            [((ami.cache_manager_lru.line
                (ami.cache_manager_lru.construct 4 2 :
                  ami.cache_manager_lru Nat) 1).getD
                ((ami.cache_manager_lru.construct 4 2 :
                  ami.cache_manager_lru Nat).assoc_ - 1) default).2]
          else []) ∧
        ami.cache_manager_lru.line
          (ami.cache_manager_lru.write
            (ami.cache_manager_lru.construct 4 2 :
              ami.cache_manager_lru Nat) 1 10).2.1 1 =
          (1, 10) ::
            (ami.cache_manager_lru.line
              (ami.cache_manager_lru.construct 4 2 :
                ami.cache_manager_lru Nat) 1).take
              ((ami.cache_manager_lru.construct 4 2 :
                ami.cache_manager_lru Nat).assoc_ - 1))) :=
  ⟨⟨by decide, by decide, fun _ => by decide⟩, by decide,
   C2_write_inserts_at_mru (ami.cache_manager_lru.construct 4 2) 1 10
     ⟨by decide, by decide, fun _ => by decide⟩ (by decide)⟩

namespace ami

namespace cache_manager_lru

variable {V : Type} [Inhabited V]

theorem read_found (c : cache_manager_lru V) (k : Nat) (i : Nat)
    (hcap : c.capacity_ ≠ 0)
    (hfind : (line c k).findIdx? (fun e => e.1 == k) = some i) :
    read c k =
      (some ((line c k).getD i default).2,
       putLine c k
         ((if 1 < c.assoc_ then bv_erase (line c k) i else line c k).set
           (c.assoc_ - 1)
           (0, ((if 1 < c.assoc_ then bv_erase (line c k) i
                 else line c k).getD (c.assoc_ - 1) default).2)),
       []) := by
  unfold read
  rw [if_neg hcap]
  dsimp only
  rw [hfind]

theorem read_none (c : cache_manager_lru V) (k : Nat)
    (hnone : ∀ e ∈ line c k, e.1 ≠ k) : (read c k).1 = none := by
  unfold read
  split
  · rfl
  · dsimp only
    rw [List.findIdx?_eq_none_iff.mpr
      (fun e he => beq_eq_false_iff_ne.mpr (hnone e he))]

theorem read_head_state (c : cache_manager_lru V) (k : Nat) (x : V)
    (t : List (Nat × V)) (hwf : c.WF) (hcap : 0 < c.capacity_)
    (hline : line c k = (k, x) :: t) :
    (read c k).1 = some x ∧ (read c k).2.2 = [] ∧
    ∃ z, line (read c k).2.1 k =
      (t ++ [z]).set (c.assoc_ - 1)
        (0, ((t ++ [z]).getD (c.assoc_ - 1) default).2) := by
  have hwl : (line c k).length = c.assoc_ := line_length c k hwf hcap
  have hA := assoc_pos c hwf hcap
  have hw1 : ((k, x) :: t).length = c.assoc_ := by rw [← hline]; exact hwl
  simp only [List.length_cons] at hw1
  have hfind : (line c k).findIdx? (fun e => e.1 == k) = some 0 := by
    rw [hline, List.findIdx?_cons]
    simp
  have hr := read_found c k 0 (by omega) hfind
  obtain ⟨z, hz⟩ : ∃ z,
      ((k, x) :: t).drop (((k, x) :: t).length - 1) = [z] := by
    apply List.length_eq_one.mp
    rw [List.length_drop]
    simp only [List.length_cons]
    omega
  have hw1e : (if 1 < c.assoc_ then bv_erase (line c k) 0 else line c k) =
      t ++ [z] := by
    by_cases hA2 : 1 < c.assoc_
    · rw [if_pos hA2, hline, bv_erase_zero]
      have h1 : ((k, x) :: t).drop 1 = t := by
        simp
      rw [h1, hz]
    · rw [if_neg hA2, hline]
      have ht : t = [] := by
        apply List.length_eq_zero.mp
        omega
      subst ht
      simp only [List.length_cons, List.length_nil, Nat.add_sub_cancel,
        List.drop_zero] at hz
      simp [hz]
  refine ⟨?_, ?_, ⟨z, ?_⟩⟩
  · rw [hr, hline]
    simp
  · rw [hr]
  · rw [hr]
    dsimp only
    rw [hw1e]
    apply line_putLine
    · rw [List.length_set, List.length_append, List.length_singleton]
      omega
    · exact hwf
    · exact hcap

theorem postline_facts (A : Nat) (t : List (Nat × V)) (z : Nat × V)
    (hA : t.length + 1 = A) :
    ((t ++ [z]).set (A - 1)
        (0, ((t ++ [z]).getD (A - 1) default).2)).length = A ∧
    (((t ++ [z]).set (A - 1)
        (0, ((t ++ [z]).getD (A - 1) default).2)).getD (A - 1) default).1
      = 0 ∧
    (∀ m, m < A - 1 →
      ((t ++ [z]).set (A - 1)
          (0, ((t ++ [z]).getD (A - 1) default).2)).getD m default =
        t.getD m default) ∧
    (∀ e ∈ (t ++ [z]).set (A - 1)
        (0, ((t ++ [z]).getD (A - 1) default).2), e.1 = 0 ∨ e ∈ t) := by
  have hlen : ((t ++ [z]).set (A - 1)
      (0, ((t ++ [z]).getD (A - 1) default).2)).length = A := by
    rw [List.length_set, List.length_append, List.length_singleton]
    omega
  have hta : (t ++ [z]).length = A := by
    rw [List.length_append, List.length_singleton]
    omega
  refine ⟨hlen, ?_, ?_, ?_⟩
  · rw [List.getD_eq_getElem _ _ (by omega), List.getElem_set_self]
  · intro m hm
    have hne : A - 1 ≠ m := by omega
    have hmt : m < t.length := by omega
    simp [List.getD_eq_getElem?_getD, List.getElem?_set, hne,
      List.getElem?_append_left hmt]
  · intro e he
    obtain ⟨m, hm, hme⟩ := List.mem_iff_getElem.mp he
    rw [hlen] at hm
    by_cases hm1 : m = A - 1
    · left
      subst hm1
      rw [List.getElem_set_self] at hme
      rw [← hme]
    · right
      have hmt : m < t.length := by omega
      have h1 : ((t ++ [z]).set (A - 1)
          (0, ((t ++ [z]).getD (A - 1) default).2))[m]? = some e := by
        rw [List.getElem?_eq_getElem (by rw [hlen]; omega)]
        exact congrArg some hme
      rw [List.getElem?_set, if_neg (by omega),
        List.getElem?_append_left hmt] at h1
      exact List.getElem?_mem h1
end cache_manager_lru

end ami

namespace ami

namespace cache_manager_lru

variable {V : Type} [Inhabited V]

theorem read_capacity (c : cache_manager_lru V) (k : Nat) :
    (read c k).2.1.capacity_ = c.capacity_ := by
  unfold read
  split
  · rfl
  · dsimp only
    split
    · rfl
    · rfl

theorem read_assoc (c : cache_manager_lru V) (k : Nat) :
    (read c k).2.1.assoc_ = c.assoc_ := by
  unfold read
  split
  · rfl
  · dsimp only
    split
    · rfl
    · rfl

theorem getD_take {β : Type} [Inhabited β] (l : List β) (n m : Nat)
    (h : m < n) (h2 : m < l.length) :
    (l.take n).getD m default = l.getD m default := by
  rw [List.getD_eq_getElem _ _ (by rw [List.length_take]; omega),
    List.getD_eq_getElem _ _ h2, List.getElem_take]

theorem countP_eq_one_of_unique {β : Type} (p : β → Bool) :
    ∀ (l : List β) (i : Nat) (hi : i < l.length), p l[i] = true →
      (∀ j (hj : j < l.length), j ≠ i → p l[j] = false) → l.countP p = 1
  | [], i, hi, _, _ => absurd hi (by simp)
  | x :: t, 0, _, hp, hothers => by
    rw [List.countP_cons]
    have h0 : t.countP p = 0 := by
      apply List.countP_eq_zero.mpr
      intro a ha
      obtain ⟨j, hj, hja⟩ := List.mem_iff_getElem.mp ha
      have h := hothers (j + 1) (by simp only [List.length_cons]; omega)
        (by omega)
      rw [List.getElem_cons_succ, hja] at h
      simp [h]
    rw [h0]
    rw [List.getElem_cons_zero] at hp
    rw [if_pos hp]
  | x :: t, i + 1, hi, hp, hothers => by
    rw [List.countP_cons]
    have hx : p x = false := by
      have h := hothers 0 (by simp) (by omega)
      rwa [List.getElem_cons_zero] at h
    rw [hx]
    simp only [List.length_cons] at hi
    rw [List.getElem_cons_succ] at hp
    have hrec := countP_eq_one_of_unique p t i (by omega) hp
      (fun j hj hne => by
        have h := hothers (j + 1) (by simp only [List.length_cons]; omega)
          (by omega)
        rwa [List.getElem_cons_succ] at h)
    simp [hrec]

end cache_manager_lru

end ami

/-- C3 counterexample: the claim fails when the key is already resident in
the set.  On a capacity-2, associativity-2 cache holding `(1, 10)`, writing
`(1, 20)` leaves both entries in the set; the read after the write returns
`(20, true)` and removes that entry, but the subsequent `read(1)` returns
`(10, true)` instead of the claimed miss. -/
theorem C3_counterexample :
    (ami.cache_manager_lru.read
      (ami.cache_manager_lru.write
        (ami.cache_manager_lru.write
          (ami.cache_manager_lru.construct 2 2 : ami.cache_manager_lru Nat)
          1 10).2.1 1 20).2.1 1).1 = some 20 ∧
    (ami.cache_manager_lru.read
      (ami.cache_manager_lru.read
        (ami.cache_manager_lru.write
          (ami.cache_manager_lru.write
            (ami.cache_manager_lru.construct 2 2 :
              ami.cache_manager_lru Nat) 1 10).2.1 1 20).2.1 1).2.1 1).1 =
      some 10 ∧
    (ami.cache_manager_lru.read
      (ami.cache_manager_lru.read
        (ami.cache_manager_lru.write
          (ami.cache_manager_lru.write
            (ami.cache_manager_lru.construct 2 2 :
              ami.cache_manager_lru Nat) 1 10).2.1 1 20).2.1 1).2.1 1).1 ≠
      none := by
  decide

/-- C3 (amended): for a cache with capacity > 0 and key `k ≠ 0` *not already
resident in its set*, `read(k)` right after `write(k, v)` returns `(v, true)`,
invokes no writeback, removes the entry, and leaves the trailing slot of the
set empty; a subsequent `read(k)` misses. -/
theorem C3_read_after_write {V : Type} [Inhabited V]
    (c : ami.cache_manager_lru V) (k : Nat) (v : V) (hwf : c.WF)
    (hcap : 0 < c.capacity_) (hk : k ≠ 0)
    (hfresh : ∀ e ∈ ami.cache_manager_lru.line c k, e.1 ≠ k) :
    (ami.cache_manager_lru.read
      (ami.cache_manager_lru.write c k v).2.1 k).1 = some v ∧
    (ami.cache_manager_lru.read
      (ami.cache_manager_lru.write c k v).2.1 k).2.2 = [] ∧
    (∀ e ∈ ami.cache_manager_lru.line
      (ami.cache_manager_lru.read
        (ami.cache_manager_lru.write c k v).2.1 k).2.1 k, e.1 ≠ k) ∧
    ((ami.cache_manager_lru.line
      (ami.cache_manager_lru.read
        (ami.cache_manager_lru.write c k v).2.1 k).2.1 k).getD
        (c.assoc_ - 1) default).1 = 0 ∧
    (ami.cache_manager_lru.read
      (ami.cache_manager_lru.read
        (ami.cache_manager_lru.write c k v).2.1 k).2.1 k).1 = none := by
  have hA := ami.cache_manager_lru.assoc_pos c hwf hcap
  have hwl := ami.cache_manager_lru.line_length c k hwf hcap
  have hline1 := ami.cache_manager_lru.line_write c k v hwf hcap
  have hwf1 := ami.cache_manager_lru.WF_write c k v hwf hcap
  have hcap1 : 0 < (ami.cache_manager_lru.write c k v).2.1.capacity_ := by
    rw [ami.cache_manager_lru.write_capacity]
    exact hcap
  have hassoc1 : (ami.cache_manager_lru.write c k v).2.1.assoc_ = c.assoc_ :=
    ami.cache_manager_lru.write_assoc c k v
  obtain ⟨hr1, hr2, z, hr3⟩ := ami.cache_manager_lru.read_head_state
    (ami.cache_manager_lru.write c k v).2.1 k v
    ((ami.cache_manager_lru.line c k).take (c.assoc_ - 1)) hwf1 hcap1 hline1
  have htlen : ((ami.cache_manager_lru.line c k).take (c.assoc_ - 1)).length =
      c.assoc_ - 1 := by
    rw [List.length_take]
    omega
  have hpf := ami.cache_manager_lru.postline_facts
    (ami.cache_manager_lru.write c k v).2.1.assoc_
    ((ami.cache_manager_lru.line c k).take (c.assoc_ - 1)) z
    (by rw [hassoc1]; omega)
  rw [hassoc1] at hpf hr3
  have htk : ∀ e ∈ (ami.cache_manager_lru.line c k).take (c.assoc_ - 1),
      e.1 ≠ k := fun e he => hfresh e (List.mem_of_mem_take he)
  have hmem : ∀ e ∈ ami.cache_manager_lru.line
      (ami.cache_manager_lru.read
        (ami.cache_manager_lru.write c k v).2.1 k).2.1 k, e.1 ≠ k := by
    intro e he
    rw [hr3] at he
    rcases hpf.2.2.2 e he with h0 | ht
    · rw [h0]
      exact fun hh => hk hh.symm
    · exact htk e ht
  refine ⟨hr1, hr2, hmem, ?_, ?_⟩
  · rw [hr3]
    exact hpf.2.1
  · exact ami.cache_manager_lru.read_none _ k hmem

/-- Witness for C3 (amended) on a fresh capacity-2, associativity-2 cache. -/
theorem C3_witness :
    (ami.cache_manager_lru.read
      (ami.cache_manager_lru.write
        (ami.cache_manager_lru.construct 2 2 : ami.cache_manager_lru Nat)
        1 10).2.1 1).1 = some 10 ∧
    (ami.cache_manager_lru.read
      (ami.cache_manager_lru.write
        (ami.cache_manager_lru.construct 2 2 : ami.cache_manager_lru Nat)
        1 10).2.1 1).2.2 = [] ∧
    (∀ e ∈ ami.cache_manager_lru.line
      (ami.cache_manager_lru.read
        (ami.cache_manager_lru.write
          (ami.cache_manager_lru.construct 2 2 : ami.cache_manager_lru Nat)
          1 10).2.1 1).2.1 1, e.1 ≠ 1) ∧
    ((ami.cache_manager_lru.line
      (ami.cache_manager_lru.read
        (ami.cache_manager_lru.write
          (ami.cache_manager_lru.construct 2 2 : ami.cache_manager_lru Nat)
          1 10).2.1 1).2.1 1).getD
        ((ami.cache_manager_lru.construct 2 2 :
          ami.cache_manager_lru Nat).assoc_ - 1) default).1 = 0 ∧
    (ami.cache_manager_lru.read
      (ami.cache_manager_lru.read
        (ami.cache_manager_lru.write
          (ami.cache_manager_lru.construct 2 2 : ami.cache_manager_lru Nat)
          1 10).2.1 1).2.1 1).1 = none :=
  C3_read_after_write (ami.cache_manager_lru.construct 2 2) 1 10
    ⟨by decide, by decide, fun _ => by decide⟩ (by decide) (by decide)
    (by decide)

/-- C8 counterexample: with associativity 1 the claim fails.  On a
capacity-1, associativity-1 cache holding `(1, 10)`, `write(1, 20)` *does*
replace the resident entry: the old value is passed to the writeback functor,
only one entry with key 1 remains, and after reading `(20, true)` the second
`read(1)` misses instead of returning `(10, true)`. -/
theorem C8_counterexample :
    ((ami.cache_manager_lru.write
        (ami.cache_manager_lru.write
          (ami.cache_manager_lru.construct 1 1 : ami.cache_manager_lru Nat)
          1 10).2.1 1 20).2.1.pdata_.countP (fun e => e.1 == 1) = 1 ∧
      (ami.cache_manager_lru.write
        (ami.cache_manager_lru.write
          (ami.cache_manager_lru.construct 1 1 : ami.cache_manager_lru Nat)
          1 10).2.1 1 20).2.2 = [10]) ∧
    (ami.cache_manager_lru.read
      (ami.cache_manager_lru.read
        (ami.cache_manager_lru.write
          (ami.cache_manager_lru.write
            (ami.cache_manager_lru.construct 1 1 :
              ami.cache_manager_lru Nat) 1 10).2.1 1 20).2.1 1).2.1 1).1 =
      none := by
  decide

/-- C8 (amended): for a cache with capacity > 0 and associativity A ≥ 2, if
key `k ≠ 0` is resident at exactly one slot of its set and that slot is not
the LRU slot (index < A-1), then `write(k, v2)` does not replace or remove
the existing entry `(k, v1)`: afterwards the set holds two entries with key
`k`, `read(k)` returns `(v2, true)` (found first from slot 0), and a second
`read(k)` returns `(v1, true)` rather than a miss. -/
theorem C8_duplicate_key_write {V : Type} [Inhabited V]
    (c : ami.cache_manager_lru V) (k : Nat) (v1 v2 : V) (i : Nat)
    (hwf : c.WF) (hcap : 0 < c.capacity_) (hA2 : 2 ≤ c.assoc_) (hk : k ≠ 0)
    (hi : i < c.assoc_ - 1)
    (hentry : (ami.cache_manager_lru.line c k).getD i default = (k, v1))
    (hothers : ∀ j, j < c.assoc_ → j ≠ i →
      ((ami.cache_manager_lru.line c k).getD j default).1 ≠ k) :
    (ami.cache_manager_lru.line
        (ami.cache_manager_lru.write c k v2).2.1 k).countP
        (fun e => e.1 == k) = 2 ∧
    (ami.cache_manager_lru.read
      (ami.cache_manager_lru.write c k v2).2.1 k).1 = some v2 ∧
    (ami.cache_manager_lru.read
      (ami.cache_manager_lru.read
        (ami.cache_manager_lru.write c k v2).2.1 k).2.1 k).1 = some v1 := by
  have hA := ami.cache_manager_lru.assoc_pos c hwf hcap
  have hwl := ami.cache_manager_lru.line_length c k hwf hcap
  have hline1 := ami.cache_manager_lru.line_write c k v2 hwf hcap
  have hwf1 := ami.cache_manager_lru.WF_write c k v2 hwf hcap
  have hcap1 : 0 < (ami.cache_manager_lru.write c k v2).2.1.capacity_ := by
    rw [ami.cache_manager_lru.write_capacity]
    exact hcap
  have hassoc1 : (ami.cache_manager_lru.write c k v2).2.1.assoc_ =
      c.assoc_ := ami.cache_manager_lru.write_assoc c k v2
  have htlen : ((ami.cache_manager_lru.line c k).take (c.assoc_ - 1)).length
      = c.assoc_ - 1 := by
    rw [List.length_take]
    omega
  -- facts about the tail `t` of the line after the write
  have htgetD : ∀ j, j < c.assoc_ - 1 →
      ((ami.cache_manager_lru.line c k).take (c.assoc_ - 1)).getD j default =
        (ami.cache_manager_lru.line c k).getD j default := by
    intro j hj
    exact ami.cache_manager_lru.getD_take _ _ _ hj (by omega)
  -- (1) two entries with key k
  have hcount : (ami.cache_manager_lru.line
      (ami.cache_manager_lru.write c k v2).2.1 k).countP
      (fun e => e.1 == k) = 2 := by
    rw [hline1, List.countP_cons]
    have h1 : ((ami.cache_manager_lru.line c k).take
        (c.assoc_ - 1)).countP (fun e => e.1 == k) = 1 := by
      apply ami.cache_manager_lru.countP_eq_one_of_unique _ _ i
        (by rw [htlen]; omega)
      · rw [← List.getD_eq_getElem _ default (by rw [htlen]; omega),
          htgetD i hi, hentry]
        exact beq_self_eq_true k
      · intro j hj hne
        rw [htlen] at hj
        rw [← List.getD_eq_getElem _ default (by rw [htlen]; omega),
          htgetD j hj]
        exact beq_eq_false_iff_ne.mpr (hothers j (by omega) hne)
    rw [h1]
    simp
  -- the first read returns v2 and leaves t ++ [z] with the last key zeroed
  obtain ⟨hr1, _hr2, z, hr3⟩ := ami.cache_manager_lru.read_head_state
    (ami.cache_manager_lru.write c k v2).2.1 k v2
    ((ami.cache_manager_lru.line c k).take (c.assoc_ - 1)) hwf1 hcap1 hline1
  have hpf := ami.cache_manager_lru.postline_facts
    (ami.cache_manager_lru.write c k v2).2.1.assoc_
    ((ami.cache_manager_lru.line c k).take (c.assoc_ - 1)) z
    (by rw [hassoc1]; omega)
  rw [hassoc1] at hpf hr3
  -- (3) the second read finds (k, v1) at index i
  have hcap2 : (ami.cache_manager_lru.read
      (ami.cache_manager_lru.write c k v2).2.1 k).2.1.capacity_ ≠ 0 := by
    rw [ami.cache_manager_lru.read_capacity,
      ami.cache_manager_lru.write_capacity]
    omega
  have hw2i : ∀ j, j < c.assoc_ - 1 →
      (ami.cache_manager_lru.line
        (ami.cache_manager_lru.read
          (ami.cache_manager_lru.write c k v2).2.1 k).2.1 k).getD j default =
        (ami.cache_manager_lru.line c k).getD j default := by
    intro j hj
    rw [hr3, hpf.2.2.1 j hj, htgetD j hj]
  have hw2len : (ami.cache_manager_lru.line
      (ami.cache_manager_lru.read
        (ami.cache_manager_lru.write c k v2).2.1 k).2.1 k).length =
      c.assoc_ := by
    rw [hr3]
    exact hpf.1
  have hfind2 : (ami.cache_manager_lru.line
      (ami.cache_manager_lru.read
        (ami.cache_manager_lru.write c k v2).2.1 k).2.1 k).findIdx?
      (fun e => e.1 == k) = some i := by
    apply List.findIdx?_eq_some_iff_findIdx_eq.mpr
    refine ⟨by rw [hw2len]; omega, ?_⟩
    apply (List.findIdx_eq (by rw [hw2len]; omega)).mpr
    constructor
    · rw [← List.getD_eq_getElem _ default (by rw [hw2len]; omega),
        hw2i i hi, hentry]
      exact beq_self_eq_true k
    · intro j hji
      rw [← List.getD_eq_getElem _ default (by rw [hw2len]; omega),
        hw2i j (by omega)]
      exact beq_eq_false_iff_ne.mpr (hothers j (by omega) (by omega))
  have hr4 := ami.cache_manager_lru.read_found
    (ami.cache_manager_lru.read
      (ami.cache_manager_lru.write c k v2).2.1 k).2.1 k i hcap2 hfind2
  refine ⟨hcount, hr1, ?_⟩
  rw [hr4]
  dsimp only
  rw [hw2i i hi, hentry]

/-- Witness for C8 (amended): a capacity-2, associativity-2 cache holding
`(1, 10)` at slot 0; writing `(1, 20)` duplicates the key. -/
theorem C8_witness :
    (ami.cache_manager_lru.line
        (ami.cache_manager_lru.write
          (ami.cache_manager_lru.write
            (ami.cache_manager_lru.construct 2 2 :
              ami.cache_manager_lru Nat) 1 10).2.1 1 20).2.1 1).countP
        (fun e => e.1 == 1) = 2 ∧
    (ami.cache_manager_lru.read
      (ami.cache_manager_lru.write
        (ami.cache_manager_lru.write
          (ami.cache_manager_lru.construct 2 2 : ami.cache_manager_lru Nat)
          1 10).2.1 1 20).2.1 1).1 = some 20 ∧
    (ami.cache_manager_lru.read
      (ami.cache_manager_lru.read
        (ami.cache_manager_lru.write
          (ami.cache_manager_lru.write
            (ami.cache_manager_lru.construct 2 2 :
              ami.cache_manager_lru Nat) 1 10).2.1 1 20).2.1 1).2.1 1).1 =
      some 10 :=
  C8_duplicate_key_write
    (ami.cache_manager_lru.write
      (ami.cache_manager_lru.construct 2 2 : ami.cache_manager_lru Nat)
      1 10).2.1 1 10 20 0
    ⟨by decide, by decide, fun _ => by decide⟩ (by decide) (by decide)
    (by decide) (by decide) (by decide) (by decide)

namespace ami

namespace cache_manager_lru

variable {V : Type} [Inhabited V]

theorem read_emits (c : cache_manager_lru V) (k : Nat) :
    (read c k).2.2 = [] := by
  unfold read
  split
  · rfl
  · dsimp only
    split
    · rfl
    · rfl

theorem erase_emits (c : cache_manager_lru V) (k : Nat) :
    (erase c k).2.2 =
      (match (line c k).findIdx? (fun e => e.1 == k) with
        | some i => [((line c k).getD i default).2]
        | none => []) := by
  unfold erase
  dsimp only
  cases hf : (line c k).findIdx? (fun e => e.1 == k) with
  | none => rfl
  | some i => rfl

theorem flush_empties (c : cache_manager_lru V) :
    ∀ e ∈ (flush c).1.pdata_, e.1 = 0 := by
  intro e he
  unfold flush at he
  dsimp only at he
  obtain ⟨a, _ha, hae⟩ := List.mem_map.mp he
  by_cases h : a.1 ≠ 0
  · rw [if_pos h] at hae
    rw [← hae]
  · rw [if_neg h] at hae
    rw [← hae]
    omega

end cache_manager_lru

end ami

/-- C4 counterexample: on a capacity-0 cache there are no slots at all
(`pdata_ = []`), so no write can displace an occupied LRU slot; yet
`write(1, 42)` passes `42` to the writeback functor.  The claim's exhaustive
enumeration of writeback points therefore fails for capacity 0. -/
theorem C4_counterexample :
    (ami.cache_manager_lru.write
      (ami.cache_manager_lru.construct 0 0 : ami.cache_manager_lru Nat)
      1 42).2.2 = [42] ∧
    (ami.cache_manager_lru.construct 0 0 :
      ami.cache_manager_lru Nat).pdata_ = [] := by
  decide

/-- C4 (amended): for a cache with capacity > 0, the writeback functor is
invoked exactly at these points and no others: by `write` exactly when the
LRU slot of the target set is occupied (with that slot's value), by `erase`
exactly when the key matches (once, with the matched entry's value), and by
`flush` once per occupied slot in slot order, after which all slots are
empty; `read` never invokes it. -/
theorem C4_writeback_points {V : Type} [Inhabited V]
    (c : ami.cache_manager_lru V) (k : Nat) (v : V)
    (hwf : c.WF) (hcap : 0 < c.capacity_) (hk : k ≠ 0) :
    (ami.cache_manager_lru.write c k v).2.2 =
      (if ((ami.cache_manager_lru.line c k).getD (c.assoc_ - 1)
            default).1 ≠ 0 then
        [((ami.cache_manager_lru.line c k).getD (c.assoc_ - 1) default).2]
      else []) ∧
    (ami.cache_manager_lru.read c k).2.2 = [] ∧
    ((ami.cache_manager_lru.erase c k).2.2 =
      match (ami.cache_manager_lru.line c k).findIdx?
          (fun e => e.1 == k) with
        | some i => [((ami.cache_manager_lru.line c k).getD i default).2]
        | none => []) ∧
    (ami.cache_manager_lru.flush c).2 =
      (c.pdata_.filter (fun e => e.1 ≠ 0)).map Prod.snd ∧
    (ami.cache_manager_lru.flush c).2.length =
      c.pdata_.countP (fun e => e.1 ≠ 0) ∧
    (∀ e ∈ (ami.cache_manager_lru.flush c).1.pdata_, e.1 = 0) := by
  refine ⟨?_, ami.cache_manager_lru.read_emits c k,
    ami.cache_manager_lru.erase_emits c k, rfl, ?_,
    ami.cache_manager_lru.flush_empties c⟩
  · rw [ami.cache_manager_lru.write_unfold c k v (by omega)]
  · show ((c.pdata_.filter (fun e => e.1 ≠ 0)).map Prod.snd).length =
      c.pdata_.countP (fun e => e.1 ≠ 0)
    rw [List.length_map, ← List.countP_eq_length_filter]

/-- Witness for C4 (amended) on a concrete capacity-4, associativity-2
cache. -/
theorem C4_witness :
    (ami.cache_manager_lru.write
      (ami.cache_manager_lru.construct 4 2 : ami.cache_manager_lru Nat)
      1 10).2.2 =
      (if ((ami.cache_manager_lru.line
            (ami.cache_manager_lru.construct 4 2 :
              ami.cache_manager_lru Nat) 1).getD
            ((ami.cache_manager_lru.construct 4 2 :
              ami.cache_manager_lru Nat).assoc_ - 1) default).1 ≠ 0 then
        [((ami.cache_manager_lru.line
            (ami.cache_manager_lru.construct 4 2 :
              ami.cache_manager_lru Nat) 1).getD
            ((ami.cache_manager_lru.construct 4 2 :
              ami.cache_manager_lru Nat).assoc_ - 1) default).2]
      else []) ∧
    (ami.cache_manager_lru.read
      (ami.cache_manager_lru.construct 4 2 : ami.cache_manager_lru Nat)
      1).2.2 = [] ∧
    ((ami.cache_manager_lru.erase
      (ami.cache_manager_lru.construct 4 2 : ami.cache_manager_lru Nat)
      1).2.2 =
      match (ami.cache_manager_lru.line
          (ami.cache_manager_lru.construct 4 2 :
            ami.cache_manager_lru Nat) 1).findIdx?
          (fun e => e.1 == 1) with
        | some i => [((ami.cache_manager_lru.line
            (ami.cache_manager_lru.construct 4 2 :
              ami.cache_manager_lru Nat) 1).getD i default).2]
        | none => []) ∧
    (ami.cache_manager_lru.flush
      (ami.cache_manager_lru.construct 4 2 : ami.cache_manager_lru Nat)).2 =
      ((ami.cache_manager_lru.construct 4 2 :
        ami.cache_manager_lru Nat).pdata_.filter
          (fun e => e.1 ≠ 0)).map Prod.snd ∧
    (ami.cache_manager_lru.flush
      (ami.cache_manager_lru.construct 4 2 :
        ami.cache_manager_lru Nat)).2.length =
      (ami.cache_manager_lru.construct 4 2 :
        ami.cache_manager_lru Nat).pdata_.countP (fun e => e.1 ≠ 0) ∧
    (∀ e ∈ (ami.cache_manager_lru.flush
        (ami.cache_manager_lru.construct 4 2 :
          ami.cache_manager_lru Nat)).1.pdata_, e.1 = 0) :=
  C4_writeback_points (ami.cache_manager_lru.construct 4 2) 1 10
    ⟨by decide, by decide, fun _ => by decide⟩ (by decide) (by decide)

/-! ## Parallel sort lemmas -/

namespace tpie

variable {α : Type} [Inhabited α]

theorem IsSWO.asym {comp : α → α → Bool} (h : IsSWO comp) {x y : α}
    (hxy : comp x y = true) : comp y x = false := by
  cases hyx : comp y x
  · rfl
  · exfalso
    have ht := h.trans x y x hxy hyx
    rw [h.irrefl x] at ht
    simp at ht

theorem median_isMedian (comp : α → α → Bool) (hswo : IsSWO comp)
    (A : List α) (i j k : Nat) :
    IsMedianOf3 comp (aget A (median comp A i j k)) (aget A i) (aget A j)
      (aget A k) := by
  unfold median
  by_cases h1 : comp (aget A i) (aget A j) = true
  · rw [if_pos h1]
    by_cases h2 : comp (aget A j) (aget A k) = true
    · rw [if_pos h2]
      exact ⟨aget A i, aget A k, List.Perm.refl _, hswo.asym h1, hswo.asym h2⟩
    · rw [if_neg h2]
      have h2f : comp (aget A j) (aget A k) = false := by simpa using h2
      by_cases h3 : comp (aget A i) (aget A k) = true
      · rw [if_pos h3]
        exact ⟨aget A i, aget A j,
          (List.Perm.cons _ (List.Perm.swap _ _ _)),
          hswo.asym h3, h2f⟩
      · rw [if_neg h3]
        have h3f : comp (aget A i) (aget A k) = false := by simpa using h3
        exact ⟨aget A k, aget A j,
          ((List.Perm.swap _ _ _).trans
            (List.Perm.cons _ (List.Perm.swap _ _ _))),
          h3f, hswo.asym h1⟩
  · rw [if_neg h1]
    have h1f : comp (aget A i) (aget A j) = false := by simpa using h1
    by_cases h3 : comp (aget A i) (aget A k) = true
    · rw [if_pos h3]
      exact ⟨aget A j, aget A k, List.Perm.swap _ _ _, h1f, hswo.asym h3⟩
    · rw [if_neg h3]
      have h3f : comp (aget A i) (aget A k) = false := by simpa using h3
      by_cases h2 : comp (aget A j) (aget A k) = true
      · rw [if_pos h2]
        exact ⟨aget A j, aget A i,
          @List.perm_middle α (aget A i) [aget A j, aget A k] [],
          hswo.asym h2, h3f⟩
      · rw [if_neg h2]
        have h2f : comp (aget A j) (aget A k) = false := by simpa using h2
        exact ⟨aget A k, aget A i,
          ((List.Perm.swap _ _ _).trans
            (@List.perm_middle α (aget A i) [aget A j, aget A k] [])),
          h2f, h1f⟩

end tpie

/-- C5: for a nonempty range `[a, b)`, `pick_pivot` returns the comp-median
of the three comp-medians of the sample triples at positions
`(a, a+s, a+2s)`, `(a+3s, a+4s, a+5s)`, `(a+6s, a+7s, b-1)` with
`s = (b-a)/8`; for the empty range it returns `a`. -/
theorem C5_pick_pivot_ninther {α : Type} [Inhabited α] (comp : α → α → Bool)
    (hswo : tpie.IsSWO comp) (A : List α) (a b : Nat) :
    (a = b → tpie.pick_pivot comp A a b = a) ∧
    (a < b →
      tpie.pick_pivot comp A a b =
        tpie.median comp A
          (tpie.median comp A (a + 0) (a + (b - a) / 8)
            (a + (b - a) / 8 * 2))
          (tpie.median comp A (a + (b - a) / 8 * 3) (a + (b - a) / 8 * 4)
            (a + (b - a) / 8 * 5))
          (tpie.median comp A (a + (b - a) / 8 * 6) (a + (b - a) / 8 * 7)
            (b - 1)) ∧
      tpie.IsMedianOf3 comp
        (tpie.aget A (tpie.median comp A (a + 0) (a + (b - a) / 8)
          (a + (b - a) / 8 * 2)))
        (tpie.aget A (a + 0)) (tpie.aget A (a + (b - a) / 8))
        (tpie.aget A (a + (b - a) / 8 * 2)) ∧
      tpie.IsMedianOf3 comp
        (tpie.aget A (tpie.median comp A (a + (b - a) / 8 * 3)
          (a + (b - a) / 8 * 4) (a + (b - a) / 8 * 5)))
        (tpie.aget A (a + (b - a) / 8 * 3))
        (tpie.aget A (a + (b - a) / 8 * 4))
        (tpie.aget A (a + (b - a) / 8 * 5)) ∧
      tpie.IsMedianOf3 comp
        (tpie.aget A (tpie.median comp A (a + (b - a) / 8 * 6)
          (a + (b - a) / 8 * 7) (b - 1)))
        (tpie.aget A (a + (b - a) / 8 * 6))
        (tpie.aget A (a + (b - a) / 8 * 7)) (tpie.aget A (b - 1)) ∧
      tpie.IsMedianOf3 comp (tpie.aget A (tpie.pick_pivot comp A a b))
        (tpie.aget A (tpie.median comp A (a + 0) (a + (b - a) / 8)
          (a + (b - a) / 8 * 2)))
        (tpie.aget A (tpie.median comp A (a + (b - a) / 8 * 3)
          (a + (b - a) / 8 * 4) (a + (b - a) / 8 * 5)))
        (tpie.aget A (tpie.median comp A (a + (b - a) / 8 * 6)
          (a + (b - a) / 8 * 7) (b - 1)))) := by
  constructor
  · intro h
    unfold tpie.pick_pivot
    rw [if_pos h]
  · intro hab
    have hpp : tpie.pick_pivot comp A a b =
        tpie.median comp A
          (tpie.median comp A (a + 0) (a + (b - a) / 8)
            (a + (b - a) / 8 * 2))
          (tpie.median comp A (a + (b - a) / 8 * 3) (a + (b - a) / 8 * 4)
            (a + (b - a) / 8 * 5))
          (tpie.median comp A (a + (b - a) / 8 * 6) (a + (b - a) / 8 * 7)
            (b - 1)) := by
      unfold tpie.pick_pivot
      rw [if_neg (by omega)]
    refine ⟨hpp, tpie.median_isMedian comp hswo A _ _ _,
      tpie.median_isMedian comp hswo A _ _ _,
      tpie.median_isMedian comp hswo A _ _ _, ?_⟩
    rw [hpp]
    exact tpie.median_isMedian comp hswo A _ _ _

/-- Witness for C5 on a concrete nine-element range with the natural order
on `Nat`. -/
theorem C5_witness :
    tpie.IsSWO (fun x y : Nat => decide (x < y)) ∧
    ((0 : Nat) = 9 → tpie.pick_pivot (fun x y : Nat => decide (x < y))
      [3, 1, 4, 1, 5, 9, 2, 6, 5] 0 9 = 0) ∧
    tpie.pick_pivot (fun x y : Nat => decide (x < y))
      [3, 1, 4, 1, 5, 9, 2, 6, 5] 0 9 =
      tpie.median (fun x y : Nat => decide (x < y))
        [3, 1, 4, 1, 5, 9, 2, 6, 5]
        (tpie.median (fun x y : Nat => decide (x < y))
          [3, 1, 4, 1, 5, 9, 2, 6, 5] 0 1 2)
        (tpie.median (fun x y : Nat => decide (x < y))
          [3, 1, 4, 1, 5, 9, 2, 6, 5] 3 4 5)
        (tpie.median (fun x y : Nat => decide (x < y))
          [3, 1, 4, 1, 5, 9, 2, 6, 5] 6 7 8) := by
  have hswo : tpie.IsSWO (fun x y : Nat => decide (x < y)) := by
    refine ⟨fun x => by simp, fun x y z h1 h2 => ?_, fun x y z h1 h2 => ?_⟩
    · simp only [decide_eq_true_eq] at h1 h2 ⊢
      omega
    · simp only [decide_eq_false_iff_not] at h1 h2 ⊢
      omega
  have h := C5_pick_pivot_ninther (fun x y : Nat => decide (x < y)) hswo
    [3, 1, 4, 1, 5, 9, 2, 6, 5] 0 9
  refine ⟨hswo, h.1, ?_⟩
  have h2 := (h.2 (by decide)).1
  simpa using h2

namespace tpie

variable {α : Type} [Inhabited α]

theorem aget_eq_getElem (A : List α) (m : Nat) (h : m < A.length) :
    aget A m = A[m] :=
  List.getD_eq_getElem A default h

theorem length_aswap (A : List α) (i j : Nat) :
    (aswap A i j).length = A.length := by
  unfold aswap
  rw [List.length_set, List.length_set]

theorem set_self (A : List α) (n : Nat) : A.set n (aget A n) = A := by
  apply List.ext_getElem
  · simp
  · intro i h1 h2
    rw [List.getElem_set]
    split
    · rename_i hn
      subst hn
      rw [aget_eq_getElem A n h2]
    · rfl

theorem aget_aswap_left (A : List α) (i j : Nat) (hi : i < A.length)
    (hj : j < A.length) : aget (aswap A i j) i = aget A j := by
  unfold aswap
  by_cases hij : i = j
  · subst hij
    rw [aget_eq_getElem _ i (by rw [List.length_set, List.length_set]; exact hi),
      List.getElem_set_self]
  · rw [aget_eq_getElem _ i (by rw [List.length_set, List.length_set]; exact hi),
      List.getElem_set_ne (fun h => hij h.symm) _, List.getElem_set_self]

theorem aget_aswap_right (A : List α) (i j : Nat) (hi : i < A.length)
    (hj : j < A.length) : aget (aswap A i j) j = aget A i := by
  unfold aswap
  rw [aget_eq_getElem _ j (by rw [List.length_set, List.length_set]; exact hj),
    List.getElem_set_self]

theorem aget_aswap_other (A : List α) (i j m : Nat) (hmi : m ≠ i)
    (hmj : m ≠ j) : aget (aswap A i j) m = aget A m := by
  unfold aswap aget
  rw [List.getD_eq_getElem?_getD, List.getD_eq_getElem?_getD,
    List.getElem?_set, if_neg (fun h => hmj h.symm),
    List.getElem?_set, if_neg (fun h => hmi h.symm)]
  exact (List.getD_eq_getElem?_getD A m default).symm

theorem cons_mid_perm (M T : List α) (x y : α) :
    List.Perm (y :: (M ++ x :: T)) (x :: (M ++ y :: T)) :=
  (List.Perm.cons y List.perm_middle).trans
    ((List.Perm.swap x y (M ++ T)).trans
      (List.Perm.cons x List.perm_middle.symm))

theorem decomp_two (A : List α) (i j : Nat) (hij : i < j)
    (hj : j < A.length) :
    A = A.take i ++ aget A i ::
      ((A.drop (i + 1)).take (j - (i + 1)) ++ aget A j :: A.drop (j + 1)) := by
  have hi : i < A.length := by omega
  conv_lhs => rw [← List.take_append_drop i A]
  rw [← List.getElem_cons_drop A i hi, ← aget_eq_getElem A i hi]
  congr 2
  conv_lhs => rw [← List.take_append_drop (j - (i + 1)) (A.drop (i + 1))]
  congr 1
  rw [List.drop_drop]
  have hj' : i + 1 + (j - (i + 1)) = j := by omega
  rw [hj', ← List.getElem_cons_drop A j hj, ← aget_eq_getElem A j hj]

theorem swap_decomp (A : List α) (i j : Nat) (hij : i < j)
    (hj : j < A.length) :
    aswap A i j = A.take i ++ aget A j ::
      ((A.drop (i + 1)).take (j - (i + 1)) ++ aget A i :: A.drop (j + 1)) := by
  have hi : i < A.length := by omega
  unfold aswap
  rw [List.set_eq_take_cons_drop _ (by rw [List.length_set]; exact hj)]
  rw [List.set_eq_take_cons_drop _ hi]
  have h1 : (A.take i ++ aget A j :: A.drop (i + 1)).take j =
      A.take i ++ aget A j :: (A.drop (i + 1)).take (j - (i + 1)) := by
    have hlt : (A.take i).length = i := by
      rw [List.length_take]
      omega
    have hj2 : j = (A.take i).length + (j - i) := by omega
    rw [hj2, List.take_append]
    congr 1
    have hji : j - i = (j - (i + 1)) + 1 := by omega
    rw [hji, List.take_cons_succ]
    have harith : (List.take i A).length + (j - (i + 1) + 1) - (i + 1) =
        j - (i + 1) := by
      rw [hlt]
      omega
    rw [harith]
  have h2 : (A.take i ++ aget A j :: A.drop (i + 1)).drop (j + 1) =
      A.drop (j + 1) := by
    have hlt : (A.take i).length = i := by
      rw [List.length_take]
      omega
    have hj2 : j + 1 = (A.take i).length + (j + 1 - i) := by omega
    rw [hj2, List.drop_append]
    have hji : j + 1 - i = (j - (i + 1)) + 2 := by omega
    rw [hji]
    show (aget A j :: A.drop (i + 1)).drop (j - (i + 1) + 1 + 1) = _
    rw [List.drop_succ_cons, List.drop_drop]
    congr 1
    omega
  rw [h1, h2]
  rw [List.append_assoc]
  rfl

theorem aswap_perm (A : List α) (i j : Nat) (hi : i < A.length)
    (hj : j < A.length) : List.Perm (aswap A i j) A := by
  rcases Nat.lt_trichotomy i j with hij | hij | hij
  · rw [swap_decomp A i j hij hj]
    conv_rhs => rw [decomp_two A i j hij hj]
    exact List.Perm.append_left _ (cons_mid_perm _ _ _ _)
  · subst hij
    unfold aswap
    rw [set_self, set_self]
  · have hsym : aswap A i j = aswap A j i := by
      unfold aswap
      rw [List.set_comm _ _ _ (by omega)]
    rw [hsym, swap_decomp A j i hij hi]
    conv_rhs => rw [decomp_two A j i hij hi]
    exact List.Perm.append_left _ (cons_mid_perm _ _ _ _)

end tpie

namespace tpie

variable {α : Type} [Inhabited α]

theorem window_length (A : List α) (a b : Nat) (hab : a ≤ b)
    (hb : b ≤ A.length) : (window A a b).length = b - a := by
  unfold window
  rw [List.length_take, List.length_drop]
  omega

theorem aget_window (A : List α) (a b m : Nat)
    (hm : m < (window A a b).length) :
    aget (window A a b) m = aget A (a + m) := by
  unfold window at hm ⊢
  rw [List.length_take, List.length_drop] at hm
  have hm2 : a + m < A.length := by omega
  rw [aget_eq_getElem _ m (by rw [List.length_take, List.length_drop]; omega),
    aget_eq_getElem _ _ hm2, List.getElem_take, List.getElem_drop]

theorem mem_window_iff (A : List α) (a b : Nat) (hab : a ≤ b)
    (hb : b ≤ A.length) (x : α) :
    x ∈ window A a b ↔ ∃ m, a ≤ m ∧ m < b ∧ aget A m = x := by
  have hwl := window_length A a b hab hb
  rw [List.mem_iff_getElem]
  constructor
  · rintro ⟨n, hn, hx⟩
    refine ⟨a + n, by omega, by omega, ?_⟩
    rw [← aget_window A a b n hn, aget_eq_getElem _ n hn, hx]
  · rintro ⟨m, hm1, hm2, hx⟩
    refine ⟨m - a, by omega, ?_⟩
    rw [← aget_eq_getElem _ _ (by omega), aget_window A a b (m - a) (by omega)]
    have : a + (m - a) = m := by omega
    rw [this, hx]

theorem take_window_drop (A : List α) (a b : Nat) (hab : a ≤ b)
    (hb : b ≤ A.length) :
    A.take a ++ (window A a b ++ A.drop b) = A := by
  unfold window
  have h1 : A.drop b = (A.drop a).drop (b - a) := by
    rw [List.drop_drop]
    congr 1
    omega
  rw [h1, List.take_append_drop, List.take_append_drop]

theorem window_eq_of_agree (A B : List α) (a b : Nat)
    (hlen : B.length = A.length)
    (hag : ∀ m, a ≤ m → m < b → aget B m = aget A m) :
    window B a b = window A a b := by
  apply List.ext_getElem
  · unfold window
    rw [List.length_take, List.length_take, List.length_drop,
      List.length_drop, hlen]
  · intro n h1 h2
    have hble : (window B a b).length ≤ b - a := by
      unfold window
      rw [List.length_take]
      omega
    rw [← aget_eq_getElem _ n h1, ← aget_eq_getElem _ n h2,
      aget_window _ _ _ _ h1, aget_window _ _ _ _ h2]
    exact hag (a + n) (by omega) (by omega)

theorem window_split (A : List α) (a p b : Nat) (hap : a ≤ p) (hpb : p < b)
    (hb : b ≤ A.length) :
    window A a b = window A a p ++ aget A p :: window A (p + 1) b := by
  unfold window
  have h1 : b - a = (p - a) + (b - p) := by omega
  rw [h1, List.take_add]
  congr 1
  rw [List.drop_drop]
  have h2 : a + (p - a) = p := by omega
  rw [h2]
  have h3 : A.drop p = aget A p :: A.drop (p + 1) := by
    rw [aget_eq_getElem A p (by omega), List.getElem_cons_drop]
  rw [h3]
  have h4 : b - p = (b - (p + 1)) + 1 := by omega
  rw [h4, List.take_cons_succ]

theorem window_perm_of_perm_frames (A B : List α) (a b : Nat)
    (hlen : B.length = A.length) (hperm : List.Perm B A)
    (hframes : ∀ m, m < a ∨ b ≤ m → aget B m = aget A m)
    (hab : a ≤ b) (hb : b ≤ A.length) :
    List.Perm (window B a b) (window A a b) := by
  have hbB : b ≤ B.length := by omega
  have htake : B.take a = A.take a := by
    apply List.ext_getElem
    · rw [List.length_take, List.length_take, hlen]
    · intro n h1 h2
      have hna : n < a := by rw [List.length_take] at h1; omega
      rw [List.getElem_take, List.getElem_take,
        ← aget_eq_getElem _ n (by omega), ← aget_eq_getElem _ n (by omega)]
      exact hframes n (Or.inl hna)
  have hdrop : B.drop b = A.drop b := by
    apply List.ext_getElem
    · rw [List.length_drop, List.length_drop, hlen]
    · intro n h1 h2
      rw [List.length_drop] at h1 h2
      rw [List.getElem_drop, List.getElem_drop,
        ← aget_eq_getElem _ _ (by omega), ← aget_eq_getElem _ _ (by omega)]
      exact hframes (b + n) (Or.inr (by omega))
  have hp : List.Perm (B.take a ++ (window B a b ++ B.drop b))
      (A.take a ++ (window A a b ++ A.drop b)) := by
    rw [take_window_drop B a b hab hbB, take_window_drop A a b hab hb]
    exact hperm
  rw [htake] at hp
  replace hp := (List.perm_append_left_iff _).mp hp
  rw [hdrop] at hp
  exact (List.perm_append_right_iff _).mp hp

theorem std_sort_spec (comp : α → α → Bool) (hswo : IsSWO comp) (A : List α)
    (a b : Nat) (hab : a ≤ b) (hb : b ≤ A.length) :
    (std_sort comp A a b).length = A.length ∧
    List.Perm (std_sort comp A a b) A ∧
    (∀ m, m < a ∨ b ≤ m → aget (std_sort comp A a b) m = aget A m) ∧
    sortedRange comp (std_sort comp A a b) a b := by
  have hwl : (window A a b).length = b - a := window_length A a b hab hb
  have hperm : List.Perm
      (List.insertionSort (fun x y => comp y x = false) (window A a b))
      (window A a b) := List.perm_insertionSort _ _
  have hslen : (List.insertionSort (fun x y => comp y x = false)
      (window A a b)).length = b - a := by
    rw [hperm.length_eq, hwl]
  have hlen : (std_sort comp A a b).length = A.length := by
    unfold std_sort
    rw [List.length_append, List.length_append, hslen, List.length_take,
      List.length_drop]
    omega
  have hfullperm : List.Perm (std_sort comp A a b) A := by
    unfold std_sort
    rw [List.append_assoc]
    conv_rhs => rw [← take_window_drop A a b hab hb]
    exact List.Perm.append_left _ (List.Perm.append_right _ hperm)
  have htsl : (A.take a ++ List.insertionSort (fun x y => comp y x = false)
      (window A a b)).length = b := by
    rw [List.length_append, hslen, List.length_take]
    omega
  have hmid : ∀ m, a ≤ m → m < b →
      aget (std_sort comp A a b) m =
        aget (List.insertionSort (fun x y => comp y x = false)
          (window A a b)) (m - a) := by
    intro m hm1 hm2
    show (A.take a ++ List.insertionSort (fun x y => comp y x = false)
        (window A a b) ++ A.drop b).getD m default = _
    rw [List.getD_eq_getElem _ _ (by
        rw [List.length_append, htsl, List.length_drop]
        omega),
      List.getElem_append_left (by rw [htsl]; omega),
      List.getElem_append_right (by rw [List.length_take]; omega)]
    rw [← aget_eq_getElem]
    congr 1
    rw [List.length_take]
    omega
  have hframes : ∀ m, m < a ∨ b ≤ m →
      aget (std_sort comp A a b) m = aget A m := by
    intro m hm
    rcases hm with hm | hm
    · show (A.take a ++ List.insertionSort (fun x y => comp y x = false)
          (window A a b) ++ A.drop b).getD m default = _
      rw [List.getD_eq_getElem _ _ (by
          rw [List.length_append, htsl, List.length_drop]
          omega),
        List.getElem_append_left (by rw [htsl]; omega),
        List.getElem_append_left (by rw [List.length_take]; omega),
        List.getElem_take, ← aget_eq_getElem _ m (by omega)]
    · rcases Nat.lt_or_ge m A.length with hml | hml
      · show (A.take a ++ List.insertionSort (fun x y => comp y x = false)
            (window A a b) ++ A.drop b).getD m default = _
        rw [List.getD_eq_getElem _ _ (by
            rw [List.length_append, htsl, List.length_drop]
            omega),
          List.getElem_append_right (by rw [htsl]; omega),
          List.getElem_drop, ← aget_eq_getElem _ _ (by rw [htsl]; omega)]
        rw [htsl]
        congr 1
        omega
      · unfold aget
        rw [List.getD_eq_default (std_sort comp A a b) default
            (by rw [hlen]; omega),
          List.getD_eq_default A default (by omega)]
  refine ⟨hlen, hfullperm, hframes, ?_⟩
  haveI : IsTotal α (fun x y => comp y x = false) := ⟨fun x y => by
    cases h : comp y x
    · exact Or.inl rfl
    · exact Or.inr (hswo.asym h)⟩
  haveI : IsTrans α (fun x y => comp y x = false) :=
    ⟨fun x y z h1 h2 => hswo.negtrans z y x h2 h1⟩
  have hsorted := List.sorted_insertionSort (fun x y => comp y x = false)
    (window A a b)
  intro i j hai hij hjb
  rw [hmid i hai (by omega), hmid j (by omega) hjb]
  have hia : i - a < (List.insertionSort (fun x y => comp y x = false)
      (window A a b)).length := by
    rw [hslen]
    omega
  have hja : j - a < (List.insertionSort (fun x y => comp y x = false)
      (window A a b)).length := by
    rw [hslen]
    omega
  rw [aget_eq_getElem _ _ hia, aget_eq_getElem _ _ hja]
  exact List.pairwise_iff_getElem.mp hsorted (i - a) (j - a) hia hja
    (by omega)

end tpie

namespace tpie

variable {α : Type} [Inhabited α]

theorem scanR_spec (comp : α → α → Bool) (A : List α) (lo s : Nat)
    (hs : comp (aget A lo) (aget A s) = false) :
    ∀ last, s < last →
      s ≤ scanR comp A lo last ∧ scanR comp A lo last < last ∧
      comp (aget A lo) (aget A (scanR comp A lo last)) = false ∧
      ∀ m, scanR comp A lo last < m → m < last →
        comp (aget A lo) (aget A m) = true := by
  intro last
  induction last with
  | zero => intro h; exact absurd h (by omega)
  | succ l ih =>
    intro _h
    unfold scanR
    by_cases hc : comp (aget A lo) (aget A l) = true
    · rw [if_pos hc]
      have hsl : s < l := by
        rcases Nat.lt_or_ge s l with h1 | h1
        · exact h1
        · exfalso
          have hseq : s = l := by omega
          rw [hseq, hc] at hs
          cases hs
      obtain ⟨h1, h2, h3, h4⟩ := ih hsl
      refine ⟨h1, by omega, h3, ?_⟩
      intro m hm1 hm2
      rcases Nat.lt_or_ge m l with h5 | h5
      · exact h4 m hm1 h5
      · have hml : m = l := by omega
        rw [hml]
        exact hc
    · rw [if_neg hc]
      have hcf : comp (aget A lo) (aget A l) = false := by simpa using hc
      exact ⟨by omega, by omega, hcf,
        fun m hm1 hm2 => absurd hm2 (by omega)⟩

theorem scanL_spec (comp : α → α → Bool) (A : List α) (lo last : Nat) :
    ∀ fuel first, first ≤ last → last - first ≤ fuel →
      (first ≤ scanL comp A lo last fuel first ∧
       scanL comp A lo last fuel first ≤ last) ∧
      (∀ m, first < m → m < scanL comp A lo last fuel first →
        comp (aget A m) (aget A lo) = true) ∧
      (scanL comp A lo last fuel first = last ∨
        comp (aget A (scanL comp A lo last fuel first)) (aget A lo)
          = false) ∧
      (scanL comp A lo last fuel first = first →
        scanL comp A lo last fuel first = last) := by
  intro fuel
  induction fuel with
  | zero =>
    intro first h1 h2
    have hfl : first = last := by omega
    unfold scanL
    exact ⟨⟨le_refl _, by omega⟩, fun m hm1 hm2 => absurd hm2 (by omega),
      Or.inl hfl, fun _ => hfl⟩
  | succ f ih =>
    intro first h1 h2
    unfold scanL
    by_cases hfl : first = last
    · rw [if_pos hfl]
      exact ⟨⟨le_refl _, by omega⟩, fun m hm1 hm2 => absurd hm2 (by omega),
        Or.inl hfl, fun _ => hfl⟩
    · rw [if_neg hfl]
      have hflt : first < last := by omega
      by_cases hc : comp (aget A (first + 1)) (aget A lo) = true
      · rw [if_pos hc]
        obtain ⟨⟨g1, g2⟩, g3, g4, g5⟩ := ih (first + 1) (by omega) (by omega)
        refine ⟨⟨by omega, g2⟩, ?_, g4, ?_⟩
        · intro m hm1 hm2
          rcases Nat.lt_or_ge m (first + 2) with h5 | h5
          · have hm : m = first + 1 := by omega
            rw [hm]
            exact hc
          · exact g3 m (by omega) hm2
        · intro hh
          exfalso
          omega
      · rw [if_neg hc]
        have hcf : comp (aget A (first + 1)) (aget A lo) = false := by
          simpa using hc
        exact ⟨⟨by omega, by omega⟩,
          fun m hm1 hm2 => absurd hm2 (by omega), Or.inr hcf,
          fun hh => absurd hh (by omega)⟩

end tpie

namespace tpie

variable {α : Type} [Inhabited α]

theorem ugpLoop_spec (comp : α → α → Bool) (hswo : IsSWO comp) (lo hi : Nat) :
    ∀ (fuel : Nat) (A : List α) (first last : Nat),
      lo ≤ first → first < last → last ≤ hi → hi ≤ A.length →
      last - lo ≤ fuel →
      (∀ i, lo ≤ i → i ≤ first → comp (aget A lo) (aget A i) = false) →
      (∀ j, last ≤ j → j < hi → comp (aget A j) (aget A lo) = false) →
      (ugpLoop comp lo fuel A first last).1.length = A.length ∧
      List.Perm (ugpLoop comp lo fuel A first last).1 A ∧
      (∀ m, m < lo ∨ hi ≤ m →
        aget (ugpLoop comp lo fuel A first last).1 m = aget A m) ∧
      aget (ugpLoop comp lo fuel A first last).1 lo = aget A lo ∧
      lo ≤ (ugpLoop comp lo fuel A first last).2 ∧
      (ugpLoop comp lo fuel A first last).2 < hi ∧
      (∀ i, lo ≤ i → i ≤ (ugpLoop comp lo fuel A first last).2 →
        comp (aget A lo) (aget (ugpLoop comp lo fuel A first last).1 i)
          = false) ∧
      (∀ j, (ugpLoop comp lo fuel A first last).2 < j → j < hi →
        comp (aget (ugpLoop comp lo fuel A first last).1 j) (aget A lo)
          = false) := by
  intro fuel
  induction fuel with
  | zero =>
    intro A first last h1 h2 h3 h4 h5 hpv hright
    exact absurd h5 (by omega)
  | succ f ih =>
    intro A first last h1 h2 h3 h4 h5 hpv hright
    obtain ⟨r1, r2, r3, r4⟩ := scanR_spec comp A lo first
      (hpv first h1 (le_refl _)) last h2
    obtain ⟨⟨l1, l2⟩, l3, l4, l5⟩ := scanL_spec comp A lo
      (scanR comp A lo last) (scanR comp A lo last - first) first r1
      (le_refl _)
    unfold ugpLoop
    dsimp only
    by_cases heq : scanL comp A lo (scanR comp A lo last)
        (scanR comp A lo last - first) first = scanR comp A lo last
    · rw [if_pos heq]
      dsimp only
      refine ⟨rfl, List.Perm.refl A, fun m _ => rfl, rfl, by omega, by omega,
        ?_, ?_⟩
      · intro i hi1 hi2
        rcases Nat.lt_or_ge first i with hfi | hfi
        · rcases Nat.lt_or_ge i (scanR comp A lo last) with hisr | hisr
          · rw [← heq] at hisr
            exact hswo.asym (l3 i hfi hisr)
          · have hieq : i = scanR comp A lo last := by omega
            rw [hieq]
            exact r3
        · exact hpv i hi1 hfi
      · intro j hj1 hj2
        rcases Nat.lt_or_ge j last with hjl | hjl
        · exact hswo.asym (r4 j hj1 hjl)
        · exact hright j hjl hj2
    · rw [if_neg heq]
      have hf1lt : scanL comp A lo (scanR comp A lo last)
          (scanR comp A lo last - first) first < scanR comp A lo last :=
        lt_of_le_of_ne l2 heq
      have hffirst : first < scanL comp A lo (scanR comp A lo last)
          (scanR comp A lo last - first) first := by
        rcases Nat.eq_or_lt_of_le l1 with h | h
        · exact absurd (l5 h.symm) heq
        · exact h
      have hlo1 : aget (aswap A
          (scanL comp A lo (scanR comp A lo last)
            (scanR comp A lo last - first) first)
          (scanR comp A lo last)) lo = aget A lo :=
        aget_aswap_other A _ _ lo (by omega) (by omega)
      have hpv1 : ∀ i, lo ≤ i →
          i ≤ scanL comp A lo (scanR comp A lo last)
            (scanR comp A lo last - first) first →
          comp (aget (aswap A
              (scanL comp A lo (scanR comp A lo last)
                (scanR comp A lo last - first) first)
              (scanR comp A lo last)) lo)
            (aget (aswap A
              (scanL comp A lo (scanR comp A lo last)
                (scanR comp A lo last - first) first)
              (scanR comp A lo last)) i) = false := by
        intro i hi1 hi2
        rw [hlo1]
        by_cases hif : i = scanL comp A lo (scanR comp A lo last)
            (scanR comp A lo last - first) first
        · rw [hif, aget_aswap_left A _ _ (by omega) (by omega)]
          exact r3
        · rw [aget_aswap_other A _ _ i hif (by omega)]
          rcases Nat.lt_or_ge first i with h | h
          · exact hswo.asym (l3 i h (by omega))
          · exact hpv i hi1 h
      have hright1 : ∀ j, scanR comp A lo last ≤ j → j < hi →
          comp (aget (aswap A
              (scanL comp A lo (scanR comp A lo last)
                (scanR comp A lo last - first) first)
              (scanR comp A lo last)) j)
            (aget (aswap A
              (scanL comp A lo (scanR comp A lo last)
                (scanR comp A lo last - first) first)
              (scanR comp A lo last)) lo) = false := by
        intro j hj1 hj2
        rw [hlo1]
        by_cases hjl : j = scanR comp A lo last
        · rw [hjl, aget_aswap_right A _ _ (by omega) (by omega)]
          rcases l4 with hl | hl
          · exact absurd hl heq
          · exact hl
        · rw [aget_aswap_other A _ _ j (by omega) hjl]
          rcases Nat.lt_or_ge j last with h | h
          · exact hswo.asym (r4 j (by omega) h)
          · exact hright j h hj2
      obtain ⟨q1, q2, q3, q4, q5, q6, q7, q8⟩ := ih
        (aswap A
          (scanL comp A lo (scanR comp A lo last)
            (scanR comp A lo last - first) first)
          (scanR comp A lo last))
        (scanL comp A lo (scanR comp A lo last)
          (scanR comp A lo last - first) first)
        (scanR comp A lo last)
        (by omega) hf1lt (by omega)
        (by rw [length_aswap]; exact h4) (by omega) hpv1 hright1
      refine ⟨q1.trans (length_aswap A _ _), ?_, ?_, q4.trans hlo1,
        q5, q6, ?_, ?_⟩
      · exact q2.trans (aswap_perm A _ _ (by omega) (by omega))
      · intro m hm
        rw [q3 m hm]
        refine aget_aswap_other A _ _ m ?_ ?_
        · rcases hm with h | h <;> omega
        · rcases hm with h | h <;> omega
      · intro i hi1 hi2
        have := q7 i hi1 hi2
        rwa [hlo1] at this
      · intro j hj1 hj2
        have := q8 j hj1 hj2
        rwa [hlo1] at this

end tpie

namespace tpie

variable {α : Type} [Inhabited α]

theorem median_mem (comp : α → α → Bool) (A : List α) (i j k : Nat) :
    median comp A i j k = i ∨ median comp A i j k = j ∨
      median comp A i j k = k := by
  unfold median
  split
  · split
    · right; left; rfl
    · split
      · right; right; rfl
      · left; rfl
  · split
    · left; rfl
    · split
      · right; right; rfl
      · right; left; rfl

theorem pick_pivot_bounds (comp : α → α → Bool) (A : List α) (a b : Nat)
    (hab : a < b) :
    a ≤ pick_pivot comp A a b ∧ pick_pivot comp A a b < b := by
  unfold pick_pivot
  rw [if_neg (by omega)]
  dsimp only
  have h1 := median_mem comp A (a + 0) (a + (b - a) / 8)
    (a + (b - a) / 8 * 2)
  have h2 := median_mem comp A (a + (b - a) / 8 * 3) (a + (b - a) / 8 * 4)
    (a + (b - a) / 8 * 5)
  have h3 := median_mem comp A (a + (b - a) / 8 * 6) (a + (b - a) / 8 * 7)
    (b - 1)
  have hb1 : a ≤ median comp A (a + 0) (a + (b - a) / 8)
      (a + (b - a) / 8 * 2) ∧
      median comp A (a + 0) (a + (b - a) / 8) (a + (b - a) / 8 * 2) < b := by
    rcases h1 with h | h | h <;> rw [h] <;> constructor <;> omega
  have hb2 : a ≤ median comp A (a + (b - a) / 8 * 3) (a + (b - a) / 8 * 4)
      (a + (b - a) / 8 * 5) ∧
      median comp A (a + (b - a) / 8 * 3) (a + (b - a) / 8 * 4)
        (a + (b - a) / 8 * 5) < b := by
    rcases h2 with h | h | h <;> rw [h] <;> constructor <;> omega
  have hb3 : a ≤ median comp A (a + (b - a) / 8 * 6) (a + (b - a) / 8 * 7)
      (b - 1) ∧
      median comp A (a + (b - a) / 8 * 6) (a + (b - a) / 8 * 7) (b - 1)
        < b := by
    rcases h3 with h | h | h <;> rw [h] <;> constructor <;> omega
  have h4 := median_mem comp A
    (median comp A (a + 0) (a + (b - a) / 8) (a + (b - a) / 8 * 2))
    (median comp A (a + (b - a) / 8 * 3) (a + (b - a) / 8 * 4)
      (a + (b - a) / 8 * 5))
    (median comp A (a + (b - a) / 8 * 6) (a + (b - a) / 8 * 7) (b - 1))
  rcases h4 with h | h | h <;> rw [h] <;> constructor <;> omega

theorem partition_spec (comp : α → α → Bool) (hswo : IsSWO comp)
    (A : List α) (a b : Nat) (hab : a < b) (hb : b ≤ A.length) :
    (partition comp A a b).1.length = A.length ∧
    List.Perm (partition comp A a b).1 A ∧
    (∀ m, m < a ∨ b ≤ m → aget (partition comp A a b).1 m = aget A m) ∧
    a ≤ (partition comp A a b).2 ∧ (partition comp A a b).2 < b ∧
    (∀ x ∈ window (partition comp A a b).1 a (partition comp A a b).2,
      comp (aget (partition comp A a b).1 (partition comp A a b).2) x
        = false) ∧
    (∀ x ∈ window (partition comp A a b).1 ((partition comp A a b).2 + 1) b,
      comp x (aget (partition comp A a b).1 (partition comp A a b).2)
        = false) := by
  obtain ⟨hp1, hp2⟩ := pick_pivot_bounds comp A a b hab
  have hA1len : (aswap A (pick_pivot comp A a b) a).length = A.length :=
    length_aswap A _ _
  obtain ⟨q1, q2, q3, q4, q5, q6, q7, q8⟩ := ugpLoop_spec comp hswo a b
    (b - a + 1) (aswap A (pick_pivot comp A a b) a) a b (le_refl a) hab
    (le_refl b) (by rw [hA1len]; exact hb) (by omega)
    (by
      intro i hi1 hi2
      have hia : i = a := by omega
      rw [hia]
      exact hswo.irrefl _)
    (by
      intro j hj1 hj2
      exact absurd hj2 (by omega))
  unfold partition unguarded_partition
  dsimp only
  have hQlen : (ugpLoop comp a (b - a + 1)
      (aswap A (pick_pivot comp A a b) a) a b).1.length = A.length := by
    rw [q1, hA1len]
  have hploc : a ≤ (ugpLoop comp a (b - a + 1)
      (aswap A (pick_pivot comp A a b) a) a b).2 ∧
      (ugpLoop comp a (b - a + 1)
        (aswap A (pick_pivot comp A a b) a) a b).2 < b := ⟨q5, q6⟩
  have hpv : aget (aswap (ugpLoop comp a (b - a + 1)
      (aswap A (pick_pivot comp A a b) a) a b).1
      (ugpLoop comp a (b - a + 1)
        (aswap A (pick_pivot comp A a b) a) a b).2 a)
      (ugpLoop comp a (b - a + 1)
        (aswap A (pick_pivot comp A a b) a) a b).2 =
      aget (aswap A (pick_pivot comp A a b) a) a := by
    rw [aget_aswap_left _ _ _ (by omega) (by omega)]
    exact q4
  refine ⟨?_, ?_, ?_, q5, q6, ?_, ?_⟩
  · rw [length_aswap, hQlen]
  · exact ((aswap_perm _ _ _ (by omega) (by omega)).trans q2).trans
      (aswap_perm A _ _ (by omega) (by omega))
  · intro m hm
    rw [aget_aswap_other _ _ _ m (by rcases hm with h | h <;> omega)
      (by rcases hm with h | h <;> omega)]
    rw [q3 m hm]
    exact aget_aswap_other A _ _ m (by rcases hm with h | h <;> omega)
      (by rcases hm with h | h <;> omega)
  · intro x hx
    rw [hpv]
    rw [mem_window_iff _ _ _ (by omega) (by rw [length_aswap, hQlen]; omega)]
      at hx
    obtain ⟨m, hm1, hm2, hmx⟩ := hx
    rcases Nat.eq_or_lt_of_le hm1 with hma | hma
    · rw [← hma] at hmx
      rw [aget_aswap_right _ _ _ (by omega) (by omega)] at hmx
      rw [← hmx]
      exact q7 _ q5 (le_refl _)
    · rw [aget_aswap_other _ _ _ m (by omega) (by omega)] at hmx
      rw [← hmx]
      exact q7 m (by omega) (by omega)
  · intro x hx
    rw [hpv]
    rw [mem_window_iff _ _ _ (by omega) (by rw [length_aswap, hQlen]; omega)]
      at hx
    obtain ⟨m, hm1, hm2, hmx⟩ := hx
    rw [aget_aswap_other _ _ _ m (by omega) (by omega)] at hmx
    rw [← hmx]
    exact q8 m (by omega) (by omega)

end tpie

namespace tpie

variable {α : Type} [Inhabited α]

theorem qsort_job_spec (min_size : Nat) (hmin : 1 ≤ min_size)
    (comp : α → α → Bool) (hswo : IsSWO comp) :
    ∀ (fuel : Nat) (A : List α) (a b : Nat), a ≤ b → b ≤ A.length →
      b - a ≤ fuel →
      (qsort_job min_size comp fuel A a b).length = A.length ∧
      List.Perm (qsort_job min_size comp fuel A a b) A ∧
      (∀ m, m < a ∨ b ≤ m →
        aget (qsort_job min_size comp fuel A a b) m = aget A m) ∧
      sortedRange comp (qsort_job min_size comp fuel A a b) a b := by
  intro fuel
  induction fuel with
  | zero =>
    intro A a b hab hb hfuel
    unfold qsort_job
    exact ⟨rfl, List.Perm.refl A, fun m _ => rfl,
      fun i j h1 h2 h3 => absurd h3 (by omega)⟩
  | succ f ih =>
    intro A a b hab hb hfuel
    unfold qsort_job
    by_cases hsmall : b - a < min_size
    · rw [if_pos hsmall]
      exact std_sort_spec comp hswo A a b hab hb
    · rw [if_neg hsmall]
      dsimp only
      have habs : a < b := by omega
      obtain ⟨p1, p2, p3, p4, p5, p6, p7⟩ :=
        partition_spec comp hswo A a b habs hb
      have hplen : (partition comp A a b).2 ≤
          (partition comp A a b).1.length := by
        rw [p1]
        omega
      have hpfuel : (partition comp A a b).2 - a ≤ f := by omega
      obtain ⟨c1, c2, c3, c4⟩ := ih (partition comp A a b).1 a
        (partition comp A a b).2 p4 hplen hpfuel
      obtain ⟨d1, d2, d3, d4⟩ := ih
        (qsort_job min_size comp f (partition comp A a b).1 a
          (partition comp A a b).2)
        ((partition comp A a b).2 + 1) b (by omega)
        (by rw [c1, p1]; omega) (by omega)
      have hDC : ∀ m, m ≤ (partition comp A a b).2 →
          aget (qsort_job min_size comp f
            (qsort_job min_size comp f (partition comp A a b).1 a
              (partition comp A a b).2)
            ((partition comp A a b).2 + 1) b) m =
          aget (qsort_job min_size comp f (partition comp A a b).1 a
            (partition comp A a b).2) m :=
        fun m hm => d3 m (Or.inl (by omega))
      have hCP : ∀ m, (partition comp A a b).2 ≤ m →
          aget (qsort_job min_size comp f (partition comp A a b).1 a
            (partition comp A a b).2) m =
          aget (partition comp A a b).1 m :=
        fun m hm => c3 m (Or.inr hm)
      have hDp : aget (qsort_job min_size comp f
          (qsort_job min_size comp f (partition comp A a b).1 a
            (partition comp A a b).2)
          ((partition comp A a b).2 + 1) b) (partition comp A a b).2 =
          aget (partition comp A a b).1 (partition comp A a b).2 :=
        (hDC _ (le_refl _)).trans (hCP _ (le_refl _))
      have hWleft : window (qsort_job min_size comp f
          (qsort_job min_size comp f (partition comp A a b).1 a
            (partition comp A a b).2)
          ((partition comp A a b).2 + 1) b) a (partition comp A a b).2 =
          window (qsort_job min_size comp f (partition comp A a b).1 a
            (partition comp A a b).2) a (partition comp A a b).2 :=
        window_eq_of_agree _ _ _ _ d1 (fun m hm1 hm2 => hDC m (by omega))
      have hWleftPerm : List.Perm
          (window (qsort_job min_size comp f (partition comp A a b).1 a
            (partition comp A a b).2) a (partition comp A a b).2)
          (window (partition comp A a b).1 a (partition comp A a b).2) :=
        window_perm_of_perm_frames _ _ a (partition comp A a b).2 c1 c2 c3
          p4 (by rw [p1]; omega)
      have hLB : ∀ x ∈ window (qsort_job min_size comp f
          (qsort_job min_size comp f (partition comp A a b).1 a
            (partition comp A a b).2)
          ((partition comp A a b).2 + 1) b) a (partition comp A a b).2,
          comp (aget (qsort_job min_size comp f
            (qsort_job min_size comp f (partition comp A a b).1 a
              (partition comp A a b).2)
            ((partition comp A a b).2 + 1) b) (partition comp A a b).2) x
            = false := by
        intro x hx
        rw [hWleft] at hx
        rw [hDp]
        exact p6 x (hWleftPerm.mem_iff.mp hx)
      have hWright : window (qsort_job min_size comp f
          (partition comp A a b).1 a (partition comp A a b).2)
          ((partition comp A a b).2 + 1) b =
          window (partition comp A a b).1 ((partition comp A a b).2 + 1)
            b :=
        window_eq_of_agree _ _ _ _ c1 (fun m hm1 hm2 => hCP m (by omega))
      have hWrightPerm : List.Perm
          (window (qsort_job min_size comp f
            (qsort_job min_size comp f (partition comp A a b).1 a
              (partition comp A a b).2)
            ((partition comp A a b).2 + 1) b)
            ((partition comp A a b).2 + 1) b)
          (window (qsort_job min_size comp f (partition comp A a b).1 a
            (partition comp A a b).2) ((partition comp A a b).2 + 1) b) :=
        window_perm_of_perm_frames _ _ ((partition comp A a b).2 + 1) b
          d1 d2 d3 (by omega) (by rw [c1, p1]; omega)
      have hRB : ∀ x ∈ window (qsort_job min_size comp f
          (qsort_job min_size comp f (partition comp A a b).1 a
            (partition comp A a b).2)
          ((partition comp A a b).2 + 1) b) ((partition comp A a b).2 + 1)
            b,
          comp x (aget (qsort_job min_size comp f
            (qsort_job min_size comp f (partition comp A a b).1 a
              (partition comp A a b).2)
            ((partition comp A a b).2 + 1) b) (partition comp A a b).2)
            = false := by
        intro x hx
        rw [hDp]
        have hx2 := hWrightPerm.mem_iff.mp hx
        rw [hWright] at hx2
        exact p7 x hx2
      have hDlen : (qsort_job min_size comp f
          (qsort_job min_size comp f (partition comp A a b).1 a
            (partition comp A a b).2)
          ((partition comp A a b).2 + 1) b).length = A.length := by
        rw [d1, c1, p1]
      refine ⟨hDlen, (d2.trans c2).trans p2, ?_, ?_⟩
      · intro m hm
        rw [d3 m (by rcases hm with h | h <;> omega),
          c3 m (by rcases hm with h | h <;> omega),
          p3 m hm]
      · intro i j hai hij hjb
        rcases Nat.lt_trichotomy j (partition comp A a b).2 with hj | hj | hj
        · rw [hDC i (by omega), hDC j (by omega)]
          exact c4 i j hai hij (by omega)
        · rw [hj]
          refine hLB _ ?_
          rw [mem_window_iff _ _ _ (by omega) (by rw [hDlen]; omega)]
          exact ⟨i, hai, by omega, rfl⟩
        · rcases Nat.lt_trichotomy i (partition comp A a b).2 with hi | hi
            | hi
          · have hcj : comp (aget (qsort_job min_size comp f
                (qsort_job min_size comp f (partition comp A a b).1 a
                  (partition comp A a b).2)
                ((partition comp A a b).2 + 1) b) j)
                (aget (qsort_job min_size comp f
                  (qsort_job min_size comp f (partition comp A a b).1 a
                    (partition comp A a b).2)
                  ((partition comp A a b).2 + 1) b)
                  (partition comp A a b).2) = false := by
              refine hRB _ ?_
              rw [mem_window_iff _ _ _ (by omega) (by rw [hDlen]; omega)]
              exact ⟨j, by omega, hjb, rfl⟩
            have hci : comp (aget (qsort_job min_size comp f
                (qsort_job min_size comp f (partition comp A a b).1 a
                  (partition comp A a b).2)
                ((partition comp A a b).2 + 1) b)
                (partition comp A a b).2)
                (aget (qsort_job min_size comp f
                  (qsort_job min_size comp f (partition comp A a b).1 a
                    (partition comp A a b).2)
                  ((partition comp A a b).2 + 1) b) i) = false := by
              refine hLB _ ?_
              rw [mem_window_iff _ _ _ (by omega) (by rw [hDlen]; omega)]
              exact ⟨i, hai, by omega, rfl⟩
            exact hswo.negtrans _ _ _ hcj hci
          · rw [hi]
            refine hRB _ ?_
            rw [mem_window_iff _ _ _ (by omega) (by rw [hDlen]; omega)]
            exact ⟨j, by omega, hjb, rfl⟩
          · exact d4 i j (by omega) hij hjb

end tpie

namespace tpie

theorem natlt_isSWO : IsSWO (fun x y : Nat => decide (x < y)) := by
  refine ⟨fun x => by simp, fun x y z h1 h2 => ?_, fun x y z h1 h2 => ?_⟩
  · simp only [decide_eq_true_eq] at h1 h2 ⊢
    omega
  · simp only [decide_eq_false_iff_not] at h1 h2 ⊢
    omega

end tpie

/-- C1: for every iterator range `[a, b)` and every comparator that is a
strict weak ordering, `parallel_sort` leaves the contents of `[a, b)` a
permutation of the original contents, sorted (for all `i < j`, not
`comp(a[j], a[i])`), and leaves everything outside the range unchanged.
The statement quantifies over `min_size ≥ 1`, so it covers both the
small-range sequential path (`b - a < min_size`) and the job-decomposed
path. -/
theorem C1_parallel_sort_sorts {α : Type} [Inhabited α] (min_size : Nat)
    (comp : α → α → Bool) (hswo : tpie.IsSWO comp) (A : List α) (a b : Nat)
    (hmin : 1 ≤ min_size) (hab : a ≤ b) (hb : b ≤ A.length) :
    List.Perm (tpie.window (tpie.parallel_sort min_size comp A a b) a b)
      (tpie.window A a b) ∧
    tpie.sortedRange comp (tpie.parallel_sort min_size comp A a b) a b ∧
    (tpie.parallel_sort min_size comp A a b).length = A.length ∧
    (∀ m, m < a ∨ b ≤ m →
      tpie.aget (tpie.parallel_sort min_size comp A a b) m =
        tpie.aget A m) := by
  have hmain : (tpie.parallel_sort min_size comp A a b).length = A.length ∧
      List.Perm (tpie.parallel_sort min_size comp A a b) A ∧
      (∀ m, m < a ∨ b ≤ m →
        tpie.aget (tpie.parallel_sort min_size comp A a b) m =
          tpie.aget A m) ∧
      tpie.sortedRange comp (tpie.parallel_sort min_size comp A a b) a b
      := by
    unfold tpie.parallel_sort
    by_cases h : b - a < min_size
    · rw [if_pos h]
      exact tpie.std_sort_spec comp hswo A a b hab hb
    · rw [if_neg h]
      exact tpie.qsort_job_spec min_size hmin comp hswo (b - a) A a b hab
        hb (le_refl _)
  obtain ⟨h1, h2, h3, h4⟩ := hmain
  exact ⟨tpie.window_perm_of_perm_frames A _ a b h1 h2 h3 hab hb, h4, h1,
    h3⟩

/-- Witness for C1: sorting `[3, 1, 2]` with `min_size = 2` exercises the
job-decomposed path on a concrete input. -/
theorem C1_witness :
    tpie.IsSWO (fun x y : Nat => decide (x < y)) ∧
    (List.Perm (tpie.window (tpie.parallel_sort 2
        (fun x y : Nat => decide (x < y)) [3, 1, 2] 0 3) 0 3)
      (tpie.window [3, 1, 2] 0 3) ∧
    tpie.sortedRange (fun x y : Nat => decide (x < y))
      (tpie.parallel_sort 2 (fun x y : Nat => decide (x < y)) [3, 1, 2] 0 3)
      0 3 ∧
    (tpie.parallel_sort 2 (fun x y : Nat => decide (x < y))
      [3, 1, 2] 0 3).length = ([3, 1, 2] : List Nat).length ∧
    (∀ m, m < 0 ∨ 3 ≤ m →
      tpie.aget (tpie.parallel_sort 2 (fun x y : Nat => decide (x < y))
        [3, 1, 2] 0 3) m = tpie.aget [3, 1, 2] m)) :=
  ⟨tpie.natlt_isSWO,
   C1_parallel_sort_sorts 2 (fun x y : Nat => decide (x < y))
     tpie.natlt_isSWO [3, 1, 2] 0 3 (by decide) (by decide) (by decide)⟩
